import Mathlib

/-!
Verification of the twoliter build tooling.

This file gives a shallow embedding of the container-build driver
(`tools/buildsys/src/builder.rs`) and the file-descriptor brokering helpers
(`tools/pipesys/src`), together with theorems settling the specification's
claims about the retry policy of `docker`, the `CARGO_MAKEFLAGS` jobserver
handshake parser, the marker-file artifact accounting (`clean_build_files`,
`copy_build_files`), the `pipesys` broker accept loop, and the in-container
descriptor fetch helper.

Machine integers are modelled as `Nat`/`Int` with explicit bounds; fallible
operations return `Except`/`Option`; the filesystem is modelled as explicit
state (a list of file entries and a list of directories) threaded through
the operations.
-/

set_option maxHeartbeats 1000000

namespace Twoliter

/-! ## Jobserver handshake parsing (`parse_makeflags`, builder.rs:835-887)

The source matches `CARGO_MAKEFLAGS` against the anchored regular expression

  `^-j --jobserver-fds=([0-9]+),([0-9]+) --jobserver-auth=([0-9]+),([0-9]+)$`

Since each `[0-9]+` group is followed by a non-digit (`,`, a space, or the
end of the haystack), the regex match is equivalent to the deterministic
greedy scan embedded below. -/

/-- Strip an expected literal prefix from a character list, returning the rest. -/
def stripLit : List Char → List Char → Option (List Char)
  | [], s => some s
  | _ :: _, [] => none
  | p :: ps, c :: cs => if p = c then stripLit ps cs else none

/-- Numeric value of a digit string. -/
def digitsToNat (cs : List Char) : Nat :=
  cs.foldl (fun a c => a * 10 + (c.toNat - '0'.toNat)) 0

/-- Embedding of the anchored `MAKEFLAGS` regular expression (builder.rs:836-841).
On a match, returns the four captured digit strings
`(read_fd, write_fd, auth_read_fd, auth_write_fd)`. -/
def matchMakeflags (s : String) : Option (String × String × String × String) :=
  match stripLit "-j --jobserver-fds=".toList s.toList with
  | none => none
  | some s0 =>
    let (r1, t1) := s0.span Char.isDigit
    if r1.isEmpty then none else
    match stripLit [','] t1 with
    | none => none
    | some s1 =>
      let (w1, t2) := s1.span Char.isDigit
      if w1.isEmpty then none else
      match stripLit " --jobserver-auth=".toList t2 with
      | none => none
      | some s2 =>
        let (r2, t3) := s2.span Char.isDigit
        if r2.isEmpty then none else
        match stripLit [','] t3 with
        | none => none
        | some s3 =>
          let (w2, t4) := s3.span Char.isDigit
          if w2.isEmpty then none else
          if t4.isEmpty then some (r1.asString, w1.asString, r2.asString, w2.asString)
          else none

/-- Largest value accepted by Rust's `i32` (the captures are unsigned digit runs,
so `parse::<i32>` succeeds exactly when the value is at most `i32::MAX`). -/
def I32_MAX : Nat := 2147483647

/-- Rust `str::parse::<i32>` on a capture: a nonempty digit string whose value
fits in a 32-bit signed integer. -/
def parseI32 (s : String) : Option Int :=
  let cs := s.toList
  if cs.isEmpty then none
  else if cs.all Char.isDigit then
    if digitsToNat cs ≤ I32_MAX then some ((digitsToNat cs : Nat) : Int) else none
  else none

/-- Error cases of `parse_makeflags` (builder.rs error module: `RegexMatch`,
`FileDescriptorMismatch` and `FileDescriptorParse` variants). -/
inductive MakeflagsError
  | regexMatch (input : String)
  | fileDescriptorMismatch (what expected actual : String)
  | fileDescriptorParse (input : String)
deriving Repr, DecidableEq

/-- Embedding of `parse_makeflags` (builder.rs:845-887): match the anchored
regex, require the `-fds` captures to be byte-identical to the `-auth`
captures (read half checked first), then parse each half as an `i32`. -/
def parse_makeflags (input : String) : Except MakeflagsError (Int × Int) :=
  match matchMakeflags input with
  | none => .error (.regexMatch input)
  | some (readFd, writeFd, authReadFd, authWriteFd) =>
    if readFd ≠ authReadFd then
      .error (.fileDescriptorMismatch "read" readFd authReadFd)
    else if writeFd ≠ authWriteFd then
      .error (.fileDescriptorMismatch "write" writeFd authWriteFd)
    else
      match parseI32 readFd with
      | none => .error (.fileDescriptorParse readFd)
      | some readVal =>
        match parseI32 writeFd with
        | none => .error (.fileDescriptorParse writeFd)
        | some writeVal => .ok (readVal, writeVal)

/-! ## The `docker` retry loop (builder.rs:514-556)

`docker` runs the command, echoes combined stdout+stderr, returns `Ok` on a
zero exit, and otherwise retries only when the output matches one of the
caller-supplied regular expressions and fewer than `max_attempts` attempts
have been made; any other failure is an immediate error carrying the full
argv.  The subprocess is modelled as a function from the (1-based) attempt
number to its observed outcome. -/

/-- Outcome of one subprocess invocation: exit status and combined
stdout+stderr (the source merges stderr into stdout and captures it). -/
structure SimOutput where
  success : Bool
  stdout : String
deriving Repr, DecidableEq

/-- The retry regular expressions used by the source are of two shapes: a
plain unanchored pattern in which `.` matches any character (the frontend,
dead-record and createrepo_c signatures), and a `(?m)...$` pattern that must
be followed by a newline or the end of the haystack (`unexpected EOF`). -/
inductive RetryPattern
  | contains (pat : List Char)
  | lineEnd (pat : List Char)
deriving Repr, DecidableEq

/-- One pattern character against one haystack character (`.` is a wildcard). -/
def patCharMatch (p c : Char) : Bool := p = '.' || p = c

/-- Match a pattern at the head of the haystack. -/
def matchHere : List Char → List Char → Bool
  | [], _ => true
  | _ :: _, [] => false
  | p :: ps, c :: cs => patCharMatch p c && matchHere ps cs

/-- Unanchored search: the pattern matches at some position of the haystack. -/
def containsMatch (pat : List Char) : List Char → Bool
  | [] => matchHere pat []
  | c :: cs => matchHere pat (c :: cs) || containsMatch pat cs

/-- Match a pattern at the head of the haystack, requiring a line end
(newline or end of haystack) right after it, as multi-line `$` does. -/
def matchToEol : List Char → List Char → Bool
  | [], [] => true
  | [], c :: _ => c = '\n'
  | _ :: _, [] => false
  | p :: ps, c :: cs => patCharMatch p c && matchToEol ps cs

/-- Unanchored search for a pattern that must end at a line end. -/
def eolSearch (pat : List Char) : List Char → Bool
  | [] => matchToEol pat []
  | c :: cs => matchToEol pat (c :: cs) || eolSearch pat cs

/-- Regex `is_match` over the captured output. -/
def RetryPattern.isMatch : RetryPattern → String → Bool
  | .contains pat, s => containsMatch pat s.toList
  | .lineEnd pat, s => eolSearch pat s.toList

/-- builder.rs:42-48. -/
def DOCKER_BUILD_FRONTEND_ERROR : RetryPattern :=
  .contains ("failed to solve with frontend dockerfile.v0: " ++
    "failed to solve with frontend gateway.v0: " ++
    "frontend grpc server closed unexpectedly").toList

/-- builder.rs:56-62. -/
def DOCKER_BUILD_DEAD_RECORD_ERROR : RetryPattern :=
  .contains ("failed to solve with frontend dockerfile.v0: " ++
    "failed to solve with frontend gateway.v0: " ++
    "rpc error: code = Unknown desc = failed to build LLB: " ++
    "failed to get dead record").toList

/-- builder.rs:71. -/
def UNEXPECTED_EOF_ERROR : RetryPattern := .lineEnd "unexpected EOF".toList

/-- builder.rs:81-84 (a `regex::escape`d literal; it contains no `.`). -/
def CREATEREPO_C_READ_HEADER_ERROR : RetryPattern :=
  .contains "C_CREATEREPOLIB: Warning: read_header: rpmReadPackageFile() error".toList

/-- builder.rs:87. -/
def DOCKER_BUILD_MAX_ATTEMPTS : Nat := 10

/-- The message list passed for the container build command (builder.rs:460-465). -/
def buildRetryMessages : List RetryPattern :=
  [DOCKER_BUILD_FRONTEND_ERROR, DOCKER_BUILD_DEAD_RECORD_ERROR,
   UNEXPECTED_EOF_ERROR, CREATEREPO_C_READ_HEADER_ERROR]

/-- The only error produced by a completed-but-failed invocation: a
`DockerExecution` error carrying the space-joined argv (builder.rs:537-542). -/
inductive DockerError
  | commandFailed (args : String)
deriving Repr, DecidableEq

/-- Retry configuration (builder.rs:550-556). -/
inductive Retry
  | no
  | yes (attempts : Nat) (messages : List RetryPattern)

/-- The loop body of `docker` (builder.rs:522-545).  `i` is the 1-based
attempt counter; `f` bounds the number of remaining re-runs (the source loop
needs no bound because `i < n` already limits it; `f ≥ n - i` makes the
fuel-exhausted branch unreachable).  On success the invocation's output and
the number of attempts made are returned. -/
def dockerLoop (r : Nat → SimOutput) (a : List String) (m : List RetryPattern)
    (n : Nat) : Nat → Nat → Except DockerError (SimOutput × Nat)
  | i, f =>
    let output := r i
    if output.success then .ok (output, i)
    else if m.any (fun p => p.isMatch output.stdout) then
      if i < n then
        match f with
        | 0 => .error (.commandFailed (String.intercalate " " a))
        | f' + 1 => dockerLoop r a m n (i + 1) f'
      else .error (.commandFailed (String.intercalate " " a))
    else .error (.commandFailed (String.intercalate " " a))

/-- Embedding of `docker` (builder.rs:514-546): with `Retry::No` a single
attempt is made; with `Retry::Yes` up to `attempts` attempts are made. -/
def docker (r : Nat → SimOutput) (a : List String) (retry : Retry) :
    Except DockerError (SimOutput × Nat) :=
  match retry with
  | .no => dockerLoop r a [] 1 1 0
  | .yes attempts messages => dockerLoop r a messages attempts 1 attempts

/-! ## Filesystem model for the marker-file protocol (builder.rs:613-758)

Paths are lists of components (the implicit root is `[]`).  The filesystem
is a list of file entries (regular files or symlinks; symlink targets are
taken to be non-directories, so symlink resolution is not modelled) plus a
list of existing directories.  `walkdir` visits entries in an unspecified
per-directory order, so the walk is modelled by the order of the entry
list; all theorems below state order-independent facts. -/

abbrev FsPath := List String

/-- One directory entry that is not a directory: a regular file or a symlink. -/
structure FsFile where
  path : FsPath
  isSymlink : Bool
  size : Nat
deriving Repr, DecidableEq

/-- The modelled filesystem state. -/
structure Fs where
  files : List FsFile
  dirs : List FsPath
deriving Repr, DecidableEq

def Fs.fileAt (fs : Fs) (p : FsPath) : Option FsFile :=
  fs.files.find? (fun f => f.path == p)

def Fs.hasFile (fs : Fs) (p : FsPath) : Bool :=
  fs.files.any (fun f => f.path == p)

def Fs.hasDir (fs : Fs) (p : FsPath) : Bool := fs.dirs.contains p

/-- `std::fs::remove_file` on an existing non-directory. -/
def Fs.removeFile (fs : Fs) (p : FsPath) : Fs :=
  { fs with files := fs.files.filter (fun f => !(f.path == p)) }

/-- `std::fs::remove_dir` on an existing empty directory. -/
def Fs.removeDir (fs : Fs) (p : FsPath) : Fs :=
  { fs with dirs := fs.dirs.filter (fun d => !(d == p)) }

/-- A strict descendant of `root` (what `WalkDir::new(root).min_depth(1)`
visits). -/
def underDir (root p : FsPath) : Bool :=
  root.isPrefixOf p && decide (root.length < p.length)

/-- The final path component (the Rust `file_name`). -/
def fileName (p : FsPath) : String := p.getLastD ""

/-- builder.rs:613. -/
def MARKER_EXTENSION : String := ".buildsys_marker"

/-- Rust `str::ends_with(MARKER_EXTENSION)` on a file name. -/
def isMarkerName (s : String) : Bool := decide (MARKER_EXTENSION.toList <:+ s.toList)

/-- The prefix of a character list before its last `.`. -/
def dropLastExt (cs : List Char) : List Char :=
  ((cs.reverse.dropWhile (fun c => !(c == '.'))).drop 1).reverse

/-- Rust `PathBuf::set_extension("")` on a file name: drop the final
extension.  A name with no `.`, or a name that begins with `.` and has no
other `.` (such as `.buildsys_marker` itself), has no extension and is left
unchanged. -/
def setExtensionEmptyName (s : String) : String :=
  match s.toList with
  | [] => s
  | c0 :: rest =>
    if (c0 :: rest).contains '.' then
      if c0 = '.' && !(rest.contains '.') then s
      else (dropLastExt (c0 :: rest)).asString
    else s

/-- Apply `set_extension("")` to the last component of a path. -/
def setExtensionEmptyPath (p : FsPath) : FsPath :=
  p.dropLast ++ [setExtensionEmptyName (fileName p)]

/-- Path of `p` relative to `root` (Rust `Path::strip_prefix`, in the only
way it is used: `root` is a genuine prefix of `p`). -/
def relTo (root p : FsPath) : FsPath := p.drop root.length

/-- The filter `has_markers` of `clean_build_files` (builder.rs:674-684)
composed with the final `is_file() || is_symlink()` filter of `find_files`
(builder.rs:757): directories are traversed, and the files kept are the
regular files whose name ends in `.buildsys_marker` (a symlink has
`file_type().is_file() == false`, so it is pruned by `filter_entry`). -/
def findMarkerFiles (fs : Fs) (buildDir : FsPath) : List FsPath :=
  (fs.files.filter (fun f =>
    !f.isSymlink && underDir buildDir f.path && isMarkerName (fileName f.path))).map
    (fun f => f.path)

/-- The filter `has_artifacts` of `copy_build_files` (builder.rs:621-632)
composed with the final filter of `find_files`: regular files whose name
does not end in `.buildsys_marker`, plus every symlink. -/
def findArtifactFiles (fs : Fs) (buildDir : FsPath) : List FsPath :=
  (fs.files.filter (fun f =>
    underDir buildDir f.path &&
    (f.isSymlink || !isMarkerName (fileName f.path)))).map (fun f => f.path)

/-- Filesystem error cases (builder.rs error module). -/
inductive FsError
  | fileRemove (path : FsPath)
  | fileCreate (path : FsPath)
  | dirCreate (path : FsPath)
  | fileRename (oldPath newPath : FsPath)
deriving Repr, DecidableEq

/-- The ancestor-collection loop of `cleanup` (builder.rs:691-698): walk up
the parents of `p`, stopping at `top`, at an already-collected directory,
or at the root; collect each parent passed.  `f` is fuel (`p.length`
suffices, since each step shortens the path). -/
def addAncestors : Nat → FsPath → FsPath → List FsPath → List FsPath
  | 0, _, _, dirs => dirs
  | f + 1, p, top, dirs =>
    if p.isEmpty then dirs
    else
      let q := p.dropLast
      if q == top || dirs.contains q then dirs
      else addAncestors f q top (q :: dirs)

/-- The `cleanup` helper of `clean_build_files` (builder.rs:686-700): a
missing path is tolerated; `remove_file` on a directory is an error;
otherwise the file (or symlink) is removed and its ancestors up to `top`
are recorded for the empty-directory sweep. -/
def cleanupOne (fs : Fs) (p top : FsPath) (dirs : List FsPath) :
    Except FsError (Fs × List FsPath) :=
  if !fs.hasFile p && !fs.hasDir p then .ok (fs, dirs)
  else if fs.hasDir p then .error (.fileRemove p)
  else .ok (fs.removeFile p, addAncestors p.length p top dirs)

/-- The corresponding output file of a marker (builder.rs:714-721): join the
marker's path relative to the marker directory onto the output directory
and drop the final extension. -/
def outTarget (buildDir outputDir m : FsPath) : FsPath :=
  setExtensionEmptyPath (outputDir ++ relTo buildDir m)

/-- The main removal loop of `clean_build_files` (builder.rs:713-724): for
each marker, clean up the corresponding output file (rooted at the output
directory) and then the marker itself (rooted at the marker directory),
sharing one collected-directory set. -/
def cleanLoop (buildDir outputDir : FsPath) :
    List FsPath → Fs → List FsPath → Except FsError (Fs × List FsPath)
  | [], fs, dirs => .ok (fs, dirs)
  | m :: ms, fs, dirs =>
    match cleanupOne fs (outTarget buildDir outputDir m) outputDir dirs with
    | .error e => .error e
    | .ok (fs1, d1) =>
      match cleanupOne fs1 m buildDir d1 with
      | .error e => .error e
      | .ok (fs2, d2) => cleanLoop buildDir outputDir ms fs2 d2

/-- Lexicographic comparison of character lists: the order `Path::cmp` uses
within one component (UTF-8 byte order agrees with code-point order). -/
def charListLt : List Char → List Char → Bool
  | [], [] => false
  | [], _ :: _ => true
  | _ :: _, [] => false
  | a :: as, b :: bs => if a = b then charListLt as bs else decide (a < b)

/-- Strict comparison of two path components. -/
def strLt (a b : String) : Bool := charListLt a.toList b.toList

/-- Reverse path ordering (the source sorts with `b.cmp(a)`, i.e. the
lexicographic `PathBuf` order descending, so children precede parents). -/
def pathLe : FsPath → FsPath → Bool
  | [], _ => true
  | _ :: _, [] => false
  | a :: as, b :: bs => if a = b then pathLe as bs else strLt a b

def insertDesc (p : FsPath) : List FsPath → List FsPath
  | [] => [p]
  | q :: qs => if pathLe q p then p :: q :: qs else q :: insertDesc p qs

/-- Sort descending (deepest paths first). -/
def sortDesc (l : List FsPath) : List FsPath := l.foldr insertDesc []

/-- `is_empty_dir` (builder.rs:702-709): an existing directory with no
direct child entry. -/
def Fs.isEmptyDir (fs : Fs) (d : FsPath) : Bool :=
  fs.hasDir d && !(fs.files.any (fun f => f.path.dropLast == d)) &&
    !(fs.dirs.any (fun e => e.dropLast == d && !(e == d)))

/-- The empty-directory sweep of `clean_build_files` (builder.rs:731-736):
remove each collected directory that is (still) an empty directory, in the
given order.  In a race-free filesystem model neither `read_dir` nor
`remove_dir` can fail here, so the sweep is total. -/
def removeEmptyDirs : List FsPath → Fs → Fs
  | [], fs => fs
  | d :: ds, fs =>
    if fs.isEmptyDir d then removeEmptyDirs ds (fs.removeDir d)
    else removeEmptyDirs ds fs

/-- Embedding of `clean_build_files` (builder.rs:667-739). -/
def clean_build_files (buildDir outputDir : FsPath) (fs : Fs) : Except FsError Fs :=
  match cleanLoop buildDir outputDir (findMarkerFiles fs buildDir) fs [] with
  | .error e => .error e
  | .ok (fs1, cleanDirs) => .ok (removeEmptyDirs (sortDesc cleanDirs) fs1)

/-! ### `copy_build_files` (builder.rs:617-660)

The source mutates the real filesystem as it iterates, so an error leaves
the moves already performed in place; the embedding therefore returns the
state reached together with an optional error (and, for accountability,
the artifact whose step failed). -/

/-- The marker path of an artifact: the artifact's name with
`.buildsys_marker` appended, alongside it (builder.rs:635-636). -/
def markerPath (p : FsPath) : FsPath :=
  p.dropLast ++ [fileName p ++ MARKER_EXTENSION]

/-- The destination of an artifact under the output directory
(builder.rs:639-645). -/
def outPath (buildDir outputDir p : FsPath) : FsPath :=
  outputDir ++ relTo buildDir p

/-- `File::create` (builder.rs:637): error if a directory sits at the path,
otherwise create (or truncate to) a zero-byte regular file. -/
def createFile (fs : Fs) (p : FsPath) : Except FsError Fs :=
  if fs.hasDir p then .error (.fileCreate p)
  else .ok { fs with
    files := fs.files.filter (fun g => !(g.path == p)) ++ [⟨p, false, 0⟩] }

/-- One step of `create_dir_all`: error if a non-directory occupies the
prefix, skip it if it is already a directory, create it otherwise. -/
def createDirOne (fs : Fs) (p : FsPath) : Except FsError Fs :=
  if fs.hasFile p then .error (.dirCreate p)
  else if fs.hasDir p then .ok fs
  else .ok { fs with dirs := fs.dirs ++ [p] }

/-- Fold step of `create_dir_all`: skip once an error has occurred. -/
def createDirStep (d : FsPath) (acc : Fs × Option FsError) (i : Nat) :
    Fs × Option FsError :=
  match acc with
  | (fs', some e) => (fs', some e)
  | (fs', none) =>
    match createDirOne fs' (d.take (i + 1)) with
    | .error e => (fs', some e)
    | .ok fs'' => (fs'', none)

/-- `std::fs::create_dir_all` on the output file's parent (builder.rs:650):
create every missing prefix in order; the directories created before a
failing prefix persist. -/
def createDirAll (fs : Fs) (d : FsPath) : Fs × Option FsError :=
  (List.range d.length).foldl (createDirStep d) (fs, none)

/-- `std::fs::rename` (builder.rs:653): error if the source is gone or the
destination is a directory; otherwise move the entry, replacing any file
already at the destination. -/
def renameFile (fs : Fs) (src dst : FsPath) : Except FsError Fs :=
  match fs.fileAt src with
  | none => .error (.fileRename src dst)
  | some f =>
    if fs.hasDir dst then .error (.fileRename src dst)
    else .ok { fs with
      files := fs.files.filter (fun g => !(g.path == src) && !(g.path == dst)) ++
        [{ f with path := dst }] }

/-- Third sub-step of the per-artifact body (builder.rs:653-656): rename
the artifact into place. -/
def copyStep3 (buildDir outputDir a : FsPath) (fs2 : Fs) : Fs × Option FsError :=
  match renameFile fs2 a (outPath buildDir outputDir a) with
  | .error e => (fs2, some e)
  | .ok fs3 => (fs3, none)

/-- Second sub-step of the per-artifact body (builder.rs:647-651): ensure
the destination's parent directories exist, then rename. -/
def copyStep2 (buildDir outputDir a : FsPath) (fs1 : Fs) : Fs × Option FsError :=
  match createDirAll fs1 (outPath buildDir outputDir a).dropLast with
  | (fs2, some e) => (fs2, some e)
  | (fs2, none) => copyStep3 buildDir outputDir a fs2

/-- The per-artifact body of `copy_build_files` (builder.rs:634-656):
create the zero-byte marker, ensure the destination's parent directories
exist, then rename the artifact into place.  Each sub-step that fails
leaves the effects of the earlier sub-steps in place. -/
def copyStep (buildDir outputDir a : FsPath) (fs : Fs) : Fs × Option FsError :=
  match createFile fs (markerPath a) with
  | .error e => (fs, some e)
  | .ok fs1 => copyStep2 buildDir outputDir a fs1

/-- The artifact loop of `copy_build_files`: stop at the first failing
artifact, reporting it together with the state reached. -/
def copyLoop (buildDir outputDir : FsPath) :
    List FsPath → Fs → Fs × Option (FsError × FsPath)
  | [], fs => (fs, none)
  | a :: rest, fs =>
    match copyStep buildDir outputDir a fs with
    | (fs1, some e) => (fs1, some (e, a))
    | (fs1, none) => copyLoop buildDir outputDir rest fs1

/-- Embedding of `copy_build_files` (builder.rs:617-660). -/
def copy_build_files (buildDir outputDir : FsPath) (fs : Fs) :
    Fs × Option (FsError × FsPath) :=
  copyLoop buildDir outputDir (findArtifactFiles fs buildDir) fs

/-! ## The FdBroker accept loop (`Server::serve`, pipesys/src/server.rs:57-113)

`serve` binds the abstract socket, opens any configured paths read-only
(recording the descriptors and retaining the handles), appends any raw
descriptors, then loops: accept, query peer credentials, compare the peer's
effective UID with the configured one; a mismatch is logged and the
connection dropped; a match spawns a detached task that sends the
descriptor list (the task's result, including any send failure, is
discarded).  Bind, open, accept, and peer-credential failures all
propagate out of `serve` via `?`.  The environment is modelled as the
outcome of the bind, an opener for the configured paths, and a finite
prefix of the accept-event stream. -/

structure BrokerConfig where
  socket : String
  clientUid : Nat
  paths : Option (List String)
  fds : Option (List Int)

/-- What one iteration of the accept loop observes.  `sendOk` is whether
the spawned descriptor send would succeed; the loop never looks at it. -/
inductive ConnEvent
  | acceptError
  | credsError
  | conn (euid : Nat) (sendOk : Bool)
deriving Repr, DecidableEq

/-- Externally visible actions of the broker. -/
inductive BrokerAction
  | warned (euid : Nat)
  | spawnedSend (euid : Nat) (fds : List Int)
deriving Repr, DecidableEq

/-- Which `?` made `serve` return an error. -/
inductive FatalStep
  | bind
  | openPath
  | accept
  | peerCreds
deriving Repr, DecidableEq

/-- Result of running `serve` against a finite event prefix: either it
returned an error at some step, or it is still in the accept loop. -/
inductive ServeResult
  | fatal (step : FatalStep) (actions : List BrokerAction)
  | running (actions : List BrokerAction)
deriving Repr, DecidableEq

def ServeResult.actions : ServeResult → List BrokerAction
  | .fatal _ acts => acts
  | .running acts => acts

/-- The accept loop (server.rs:87-112). -/
def serveLoop (clientUid : Nat) (serveFds : List Int) :
    List ConnEvent → List BrokerAction → ServeResult
  | [], acc => .running acc.reverse
  | .acceptError :: _, acc => .fatal .accept acc.reverse
  | .credsError :: _, acc => .fatal .peerCreds acc.reverse
  | .conn euid _ :: rest, acc =>
    if euid ≠ clientUid then
      serveLoop clientUid serveFds rest (.warned euid :: acc)
    else
      serveLoop clientUid serveFds rest (.spawnedSend euid serveFds :: acc)

/-- Open every configured path (server.rs:66-81); `none` when some open
fails.  The served list is the opened-path descriptors in order. -/
def openAll : Option (List String) → (String → Option Int) → Option (List Int)
  | none, _ => some []
  | some ps, opener => ps.mapM opener

/-- Embedding of `Server::serve` (server.rs:57-113): bind, open the paths,
extend with the raw descriptors, then run the accept loop. -/
def serve (cfg : BrokerConfig) (bindOk : Bool) (opener : String → Option Int)
    (events : List ConnEvent) : ServeResult :=
  if !bindOk then .fatal .bind []
  else
    match openAll cfg.paths opener with
    | none => .fatal .openPath []
    | some pathFds =>
      serveLoop cfg.clientUid (pathFds ++ (cfg.fds.getD [])) events []

/-! ## Broker startup ordering in `DockerBuild::build` (builder.rs:439-467)

The driver spawns the jobserver broker task and the bypass-container task
on a background runtime and then invokes the container build synchronously,
without any readiness signal from either task.  The observable events are
modelled as three sequences — the main thread's program order and each
task's — and a schedule is any interleaving that respects program order
and does not run a task's first action before the task is spawned. -/

inductive BuildOp
  | spawnJobserverTask
  | spawnBypassTask
  | startBuild
  | bindJobserver
  | bindBypass
deriving Repr, DecidableEq, BEq

/-- A schedule of the five events of interest is valid when every event
occurs exactly once, the main thread's three events keep their program
order (builder.rs:442, 450, 456), and each spawned task's bind happens
after its spawn. -/
def validSchedule (t : List BuildOp) : Bool :=
  t.length = 5 &&
  t.contains .spawnJobserverTask && t.contains .spawnBypassTask &&
  t.contains .startBuild && t.contains .bindJobserver && t.contains .bindBypass &&
  decide (t.indexOf .spawnJobserverTask < t.indexOf .spawnBypassTask) &&
  decide (t.indexOf .spawnBypassTask < t.indexOf .startBuild) &&
  decide (t.indexOf .spawnJobserverTask < t.indexOf .bindJobserver) &&
  decide (t.indexOf .spawnBypassTask < t.indexOf .bindBypass)

/-- The schedule in which the main thread runs to the build invocation
before either background task is first polled. -/
def buildRaceSchedule : List BuildOp :=
  [.spawnJobserverTask, .spawnBypassTask, .startBuild, .bindJobserver, .bindBypass]

/-! ## The descriptor fetch helper (`fetch_fds`, pipesys/src/cmd/mod.rs:75-109)

The client receives one message into an 8-slot buffer initialised to `-1`,
checks that the reported descriptor count equals the configured one, then
iterates over all 8 slots, silently skipping every value below `MIN_FD = 3`
(which also skips the `-1` fill), and duplicates each kept descriptor with
`F_DUPFD(3)` — the lowest free descriptor at or above 3, with close-on-exec
clear.  The kernel descriptor table is modelled as the list of allocated
descriptor numbers. -/

/-- pipesys/src/cmd/mod.rs:18. -/
def MIN_FD : Int := 3

inductive FetchError
  | wrongCount (got wanted : Nat)
deriving Repr, DecidableEq

/-- Lowest free descriptor at or above `start` (fuel-bounded search; fuel
one more than the table size always suffices). -/
def lowestFreeFrom (allocated : List Int) : Nat → Int → Int
  | 0, n => n
  | f + 1, n => if allocated.contains n then lowestFreeFrom allocated f (n + 1) else n

/-- `fcntl(fd, F_DUPFD(MIN_FD))` (cmd/mod.rs:105-109): allocate the lowest
free descriptor at or above 3 and return it together with the enlarged
table.  The duplicate refers to the same open file as the source
descriptor; the number-only model does not track file identity, so the
source descriptor is unused here. -/
def duplicate_fd (allocated : List Int) (_fd : Int) : Int × List Int :=
  let nf := lowestFreeFrom allocated (allocated.length + 1) MIN_FD
  (nf, nf :: allocated)

/-- Fold step of the duplication loop (cmd/mod.rs:93-99): duplicate one
kept descriptor and push the duplicate. -/
def dupStep (acc : List Int × List Int) (fd : Int) : List Int × List Int :=
  let d := duplicate_fd acc.2 fd
  (acc.1 ++ [d.1], d.2)

/-- Embedding of `fetch_fds` (cmd/mod.rs:75-102).  `received` is the
descriptor list delivered with the message (at most 8 entries fit the
buffer); `allocated` is the process's descriptor table.  Socket creation,
connect and receive failures are outside the protocol logic and are not
modelled. -/
def fetch_fds (wanted : Nat) (received : List Int) (allocated : List Int) :
    Except FetchError (List Int) :=
  let fdBuf : List Int := received.take 8 ++ List.replicate (8 - received.length) (-1)
  if received.length ≠ wanted then .error (.wrongCount received.length wanted)
  else
    let kept := fdBuf.filter (fun fd => MIN_FD ≤ fd)
    .ok (kept.foldl dupStep (([] : List Int), allocated)).1

/-! ## Spec-side definitions and concrete fixtures

`claimStrippedName`/`claimCleanTargets` follow the specification's words
("the output-directory file at the same relative path with the suffix
stripped") for comparison against the source's `set_extension("")`; the
remaining definitions are concrete inputs used by counterexamples and
witnesses. -/

/-- Literal suffix stripping, as the specification describes it: remove the
final `.buildsys_marker` characters from the name. -/
def claimStrippedName (s : String) : String :=
  (s.toList.take (s.toList.length - MARKER_EXTENSION.toList.length)).asString

/-- Apply the literal suffix strip to the last component of a path. -/
def claimStrippedPath (p : FsPath) : FsPath :=
  p.dropLast ++ [claimStrippedName (fileName p)]

/-- The removal set described by the specification: each marker, and the
output-directory file at the same relative path with the suffix stripped. -/
def claimCleanTargets (buildDir outputDir : FsPath) : List FsPath → List FsPath
  | [] => []
  | m :: ms =>
    (outputDir ++ claimStrippedPath (relTo buildDir m)) :: m ::
      claimCleanTargets buildDir outputDir ms

/-- The code's removal-target list: each marker's corresponding output file
(final extension dropped) followed by the marker itself. -/
def cleanTargets (buildDir outputDir : FsPath) : List FsPath → List FsPath
  | [] => []
  | m :: ms => outTarget buildDir outputDir m :: m :: cleanTargets buildDir outputDir ms

/-- Directories that the empty-directory sweep may consider: strict
descendants of the output-directory root or of the marker-directory root.
Used to state that the sweep never removes either root. -/
def GoodDir (buildDir outputDir q : FsPath) : Prop :=
  (outputDir <+: q ∧ q ≠ outputDir) ∨ (buildDir <+: q ∧ q ≠ buildDir)

/-- Parent-closure of one collected directory: within its family (strictly
below the marker-directory root or the output-directory root), its parent
is either the root or also collected.  The ancestor walk of `cleanup`
stops early at an already-collected directory, so the collected set is
ancestor-complete exactly in this sense. -/
def ClosureAt (buildDir outputDir : FsPath) (dirs : List FsPath) (x : FsPath) : Prop :=
  (buildDir <+: x ∧ x ≠ buildDir → x.dropLast = buildDir ∨ x.dropLast ∈ dirs) ∧
  (outputDir <+: x ∧ x ≠ outputDir → x.dropLast = outputDir ∨ x.dropLast ∈ dirs)

/-- Every collected directory is parent-closed. -/
def ParentClosed (buildDir outputDir : FsPath) (dirs : List FsPath) : Prop :=
  ∀ x ∈ dirs, ClosureAt buildDir outputDir dirs x

/-- The bare phrase named by the retry claim, without the full signature
required by `DOCKER_BUILD_FRONTEND_ERROR`. -/
def FRONTEND_PHRASE : String := "frontend grpc server closed unexpectedly"

/-- A builder whose first nine invocations fail with output containing only
the bare phrase, and whose tenth succeeds. -/
def cexBuildRun : Nat → SimOutput := fun i =>
  if i < 10 then ⟨false, FRONTEND_PHRASE⟩ else ⟨true, ""⟩

/-- The full frontend-error signature that the retry regex requires. -/
def FRONTEND_SIGNATURE : String :=
  "failed to solve with frontend dockerfile.v0: " ++
    "failed to solve with frontend gateway.v0: " ++
    "frontend grpc server closed unexpectedly"

/-- A builder whose first nine invocations fail with the full signature in
their output, and whose tenth succeeds. -/
def okBuildRun : Nat → SimOutput := fun i =>
  if i < 10 then ⟨false, FRONTEND_SIGNATURE⟩ else ⟨true, "done"⟩

/-- A broker configured for the container build UID with two raw
descriptors, like the jobserver broker (builder.rs:443). -/
def cfg1000 : BrokerConfig := ⟨"buildsys-jobserver-t-1", 1000, none, some [5, 6]⟩

/-- A path opener for configurations with no paths. -/
def noOpen : String → Option Int := fun _ => none

/-- A marker tree containing a file named exactly `.buildsys_marker`, with
a file of the same name present in the output tree. -/
def cexCleanFs : Fs :=
  { files := [⟨["state", ".buildsys_marker"], false, 0⟩,
              ⟨["out", ".buildsys_marker"], false, 7⟩],
    dirs := [[], ["state"], ["out"]] }

/-- The marker-sweep fixture: output tree `a/b.rpm`, state tree
`a/b.rpm.buildsys_marker`. -/
def sweepFs : Fs :=
  { files := [⟨["state", "a", "b.rpm.buildsys_marker"], false, 0⟩,
              ⟨["out", "a", "b.rpm"], false, 5⟩],
    dirs := [["state"], ["state", "a"], ["out"], ["out", "a"]] }

/-- A harvest tree with one artifact to move. -/
def copyFs : Fs :=
  { files := [⟨["state", "a", "b.rpm"], false, 5⟩],
    dirs := [["state"], ["state", "a"], ["out"]] }

/-- The state after a successful `copy_build_files` on `copyFs`. -/
def copyFsAfter : Fs :=
  { files := [⟨["state", "a", "b.rpm.buildsys_marker"], false, 0⟩,
              ⟨["out", "a", "b.rpm"], false, 5⟩],
    dirs := [["state"], ["state", "a"], ["out"], ["out", "a"]] }

/-- A harvest tree whose second artifact cannot be renamed because a
directory occupies its destination. -/
def copyErrFs : Fs :=
  { files := [⟨["state", "a1.rpm"], false, 1⟩, ⟨["state", "a2.rpm"], false, 2⟩],
    dirs := [["state"], ["out"], ["out", "a2.rpm"]] }

/-- The state reached when `copy_build_files` on `copyErrFs` fails: the
first artifact is moved with its marker, the second artifact's marker
exists while the artifact itself was not moved. -/
def copyErrAfter : Fs :=
  { files := [⟨["state", "a2.rpm"], false, 2⟩,
              ⟨["state", "a1.rpm.buildsys_marker"], false, 0⟩,
              ⟨["out", "a1.rpm"], false, 1⟩,
              ⟨["state", "a2.rpm.buildsys_marker"], false, 0⟩],
    dirs := [["state"], ["out"], ["out", "a2.rpm"]] }

deriving instance DecidableEq for Except

/-! ## Path lemmas -/

theorem underDir_iff {r p : FsPath} :
    underDir r p = true ↔ r <+: p ∧ r.length < p.length := by
  simp [underDir, List.isPrefixOf_iff_prefix]

theorem append_relTo {r p : FsPath} (h : r <+: p) : r ++ relTo r p = p := by
  obtain ⟨t, rfl⟩ := h
  simp [relTo, List.drop_left]

theorem relTo_ne_nil {r p : FsPath} (h : r <+: p) (hl : r.length < p.length) :
    relTo r p ≠ [] := by
  intro hn
  have h2 := append_relTo h
  rw [hn, List.append_nil] at h2
  exact absurd (congrArg List.length h2) (by omega)

theorem dropLast_append' (x : List String) :
    ∀ r : List String, r ≠ [] → (x ++ r).dropLast = x ++ r.dropLast := by
  induction x with
  | nil => intro r _; simp
  | cons a x ih =>
    intro r h
    have hx : x ++ r ≠ [] := by
      intro hc
      exact h (List.append_eq_nil.mp hc).2
    obtain ⟨b, l, hbl⟩ : ∃ b l, x ++ r = b :: l := by
      cases hxr : x ++ r with
      | nil => exact absurd hxr hx
      | cons b l => exact ⟨b, l, rfl⟩
    simp only [List.cons_append, hbl, List.dropLast_cons₂]
    rw [← hbl, ih r h]

theorem not_under_both {b o p : FsPath} (h1 : ¬ b <+: o) (h2 : ¬ o <+: b)
    (hb : b <+: p) (ho : o <+: p) : False := by
  rcases List.prefix_or_prefix_of_prefix hb ho with h | h
  exacts [h1 h, h2 h]

theorem fileName_concat (l : FsPath) (x : String) : fileName (l ++ [x]) = x := by
  simp [fileName]

theorem path_eq_dropLast_fileName {p : FsPath} (h : p ≠ []) :
    p.dropLast ++ [fileName p] = p := by
  rcases List.eq_nil_or_concat p with rfl | ⟨l, x, rfl⟩
  · exact absurd rfl h
  · simp only [List.concat_eq_append]
    rw [List.dropLast_concat, fileName_concat]

theorem toList_append (s t : String) : (s ++ t).toList = s.toList ++ t.toList :=
  String.data_append s t

theorem string_append_right_cancel {s t u : String} (h : s ++ u = t ++ u) :
    s = t := by
  apply String.ext
  have h2 := congrArg String.toList h
  rw [toList_append, toList_append] at h2
  exact List.append_cancel_right h2

theorem isMarkerName_append (s : String) :
    isMarkerName (s ++ MARKER_EXTENSION) = true := by
  have h : (s ++ MARKER_EXTENSION).toList = s.toList ++ MARKER_EXTENSION.toList :=
    toList_append _ _
  simp only [isMarkerName, h, decide_eq_true_eq]
  exact List.suffix_append _ _

theorem fileName_markerPath (p : FsPath) :
    fileName (markerPath p) = fileName p ++ MARKER_EXTENSION :=
  fileName_concat _ _

theorem markerPath_ne_self {p : FsPath} (hm : isMarkerName (fileName p) = false) :
    markerPath p ≠ p := by
  intro he
  rw [← he, fileName_markerPath, isMarkerName_append] at hm
  exact Bool.true_eq_false.mp hm

theorem markerPath_inj {p q : FsPath} (hp : p ≠ []) (hq : q ≠ [])
    (h : markerPath p = markerPath q) : p = q := by
  have hd : p.dropLast = q.dropLast := by
    have h2 := congrArg List.dropLast h
    simpa [markerPath, List.dropLast_concat] using h2
  have hf : fileName p ++ MARKER_EXTENSION = fileName q ++ MARKER_EXTENSION := by
    have h2 := congrArg fileName h
    simpa [fileName_markerPath] using h2
  have hf2 : fileName p = fileName q := string_append_right_cancel hf
  calc p = p.dropLast ++ [fileName p] := (path_eq_dropLast_fileName hp).symm
    _ = q.dropLast ++ [fileName q] := by rw [hd, hf2]
    _ = q := path_eq_dropLast_fileName hq

theorem markerPath_under {b p : FsPath} (hb : b <+: p) (hl : b.length < p.length) :
    b <+: markerPath p ∧ b.length < (markerPath p).length := by
  obtain ⟨t, rfl⟩ := hb
  have ht : t ≠ [] := by
    intro h; subst h; simp at hl
  have h1 : 1 ≤ t.length := List.length_pos.mpr ht
  unfold markerPath
  rw [dropLast_append' b t ht, List.append_assoc]
  refine ⟨List.prefix_append _ _, ?_⟩
  simp only [List.length_append, List.length_dropLast, List.length_cons,
    List.length_nil] at hl ⊢
  omega

theorem nonempty_of_under {b p : FsPath} (hl : b.length < p.length) : p ≠ [] := by
  intro h; subst h; simp at hl

theorem outPath_under {b o p : FsPath} (hl : b.length < p.length) :
    o <+: outPath b o p ∧ o.length < (outPath b o p).length := by
  unfold outPath
  refine ⟨List.prefix_append _ _, ?_⟩
  simp only [List.length_append, relTo, List.length_drop]
  omega

theorem outPath_inj {b o p q : FsPath} (hp : b <+: p) (hq : b <+: q)
    (h : outPath b o p = outPath b o q) : p = q := by
  unfold outPath at h
  have h2 : relTo b p = relTo b q := List.append_cancel_left h
  calc p = b ++ relTo b p := (append_relTo hp).symm
    _ = b ++ relTo b q := by rw [h2]
    _ = q := append_relTo hq

theorem outTarget_under {b o m : FsPath} (hb : b <+: m) (hl : b.length < m.length) :
    o <+: outTarget b o m ∧ o.length < (outTarget b o m).length := by
  have hrel : relTo b m ≠ [] := relTo_ne_nil hb hl
  have h1 : 1 ≤ (relTo b m).length := List.length_pos.mpr hrel
  unfold outTarget setExtensionEmptyPath
  rw [dropLast_append' o _ hrel, List.append_assoc]
  refine ⟨List.prefix_append _ _, ?_⟩
  simp only [List.length_append, List.length_dropLast, List.length_cons,
    List.length_nil]
  omega

theorem GoodDir.ne_roots {b o q : FsPath} (h1 : ¬ b <+: o) (h2 : ¬ o <+: b)
    (hq : GoodDir b o q) : q ≠ b ∧ q ≠ o := by
  constructor
  · rintro rfl
    rcases hq with ⟨hp, _⟩ | ⟨_, hne⟩
    · exact h2 hp
    · exact hne rfl
  · rintro rfl
    rcases hq with ⟨_, hne⟩ | ⟨hp, _⟩
    · exact hne rfl
    · exact h1 hp

/-! ## C6: broker readiness vs. build start (code_bug evidence) -/

/-- C6: the claim states that in every execution of `DockerBuild::build`
both broker binds complete (or fail) before the container build subprocess
is spawned.  The source (builder.rs:442-456) spawns both broker tasks on a
background runtime and immediately invokes the build command with no
readiness synchronization, so the valid schedule in which the main thread
reaches the build invocation before either background task is first polled
shows the claimed ordering does not hold. -/
theorem claim_C6_code_bug :
    validSchedule buildRaceSchedule = true ∧
    buildRaceSchedule.indexOf .startBuild < buildRaceSchedule.indexOf .bindJobserver ∧
    buildRaceSchedule.indexOf .startBuild < buildRaceSchedule.indexOf .bindBypass := by
  decide

/-! ## C8: the descriptor fetch helper -/

theorem lowestFreeFrom_ge (a : List Int) : ∀ (f : Nat) (n : Int),
    n ≤ lowestFreeFrom a f n := by
  intro f
  induction f with
  | zero => intro n; exact le_refl n
  | succ f ih =>
    intro n
    unfold lowestFreeFrom
    split
    · exact le_trans (by omega) (ih (n + 1))
    · exact le_refl n

theorem dupStep_fst (acc : List Int × List Int) (fd : Int) :
    (dupStep acc fd).1 = acc.1 ++ [(duplicate_fd acc.2 fd).1] := rfl

theorem duplicate_fd_ge (a : List Int) (fd : Int) :
    MIN_FD ≤ (duplicate_fd a fd).1 :=
  lowestFreeFrom_ge a (a.length + 1) MIN_FD

theorem dupFold_spec : ∀ (l acc tbl : List Int),
    (∀ x ∈ acc, MIN_FD ≤ x) →
    (∀ x ∈ (l.foldl dupStep (acc, tbl)).1, MIN_FD ≤ x) ∧
      ((l.foldl dupStep (acc, tbl)).1).length = acc.length + l.length := by
  intro l
  induction l with
  | nil =>
    intro acc tbl hacc
    exact ⟨hacc, by simp⟩
  | cons fd l ih =>
    intro acc tbl hacc
    have hstep : dupStep (acc, tbl) fd =
        (acc ++ [(duplicate_fd tbl fd).1], (duplicate_fd tbl fd).2) := rfl
    have hacc' : ∀ x ∈ acc ++ [(duplicate_fd tbl fd).1], MIN_FD ≤ x := by
      intro x hx
      rcases List.mem_append.mp hx with hx | hx
      · exact hacc x hx
      · rw [List.mem_singleton.mp hx]
        exact duplicate_fd_ge tbl fd
    have h := ih (acc ++ [(duplicate_fd tbl fd).1]) (duplicate_fd tbl fd).2 hacc'
    rw [List.foldl_cons, hstep]
    refine ⟨h.1, ?_⟩
    rw [h.2]
    simp
    omega

theorem fetch_fds_eq_ok (w : Nat) (r a : List Int) (h : r.length = w) :
    fetch_fds w r a = .ok (((r.take 8 ++ List.replicate (8 - r.length) (-1 : Int)).filter
      (fun fd => decide (MIN_FD ≤ fd))).foldl dupStep ([], a)).1 := by
  subst h
  simp [fetch_fds]

/-- C8 counterexample: the claim says discarding a received descriptor
below 3 is a protocol error.  With a matching count and a received
descriptor `2`, `fetch_fds` silently drops it and succeeds with an empty
list: the filter at cmd/mod.rs:94 skips descriptors below `MIN_FD` without
reporting anything. -/
theorem claim_C8_counterexample :
    fetch_fds 1 [2] [0, 1, 2] = .ok [] ∧ (2 : Int) < MIN_FD := by
  decide

/-- C8 (amended): `fetch_fds` fails with a protocol error exactly when the
received descriptor count differs from the configured one; a received
descriptor below 3 (like the `-1` buffer fill) is silently discarded, not
an error; on success the result is the duplicate, in receive order, of
each received descriptor at least 3, and every returned descriptor is at
least 3. -/
theorem claim_C8 :
    (∀ (w : Nat) (r a : List Int), r.length ≠ w →
      fetch_fds w r a = .error (.wrongCount r.length w))
    ∧ (∀ (w : Nat) (r a : List Int), r.length ≤ 8 → r.length = w →
      ∃ l, fetch_fds w r a = .ok l ∧ (∀ x ∈ l, MIN_FD ≤ x) ∧
        l.length = (r.filter (fun fd => MIN_FD ≤ fd)).length) := by
  constructor
  · intro w r a hne
    simp [fetch_fds, hne]
  · intro w r a hle hw
    have htake : r.take 8 = r := List.take_of_length_le hle
    have hrep : (List.replicate (8 - r.length) (-1 : Int)).filter
        (fun fd => decide (MIN_FD ≤ fd)) = [] := by
      apply List.filter_eq_nil_iff.mpr
      intro x hx
      rw [List.eq_of_mem_replicate hx]
      decide
    have hkept : (r.take 8 ++ List.replicate (8 - r.length) (-1 : Int)).filter
        (fun fd => decide (MIN_FD ≤ fd)) = r.filter (fun fd => decide (MIN_FD ≤ fd)) := by
      rw [htake, List.filter_append, hrep, List.append_nil]
    have hfold := dupFold_spec
      (r.filter (fun fd => decide (MIN_FD ≤ fd))) [] a (by intro x hx; cases hx)
    have heq := fetch_fds_eq_ok w r a hw
    rw [hkept] at heq
    refine ⟨_, heq, hfold.1, ?_⟩
    rw [hfold.2]
    simp

/-- C8 witness: two descriptors received for a configured count of two are
duplicated to values at or above 3. -/
theorem claim_C8_witness :
    ([7, 9] : List Int).length ≤ 8 ∧
    ∃ l, fetch_fds 2 [7, 9] [0, 1, 2, 7, 9] = .ok l ∧ (∀ x ∈ l, MIN_FD ≤ x) ∧
      l.length = (([7, 9] : List Int).filter (fun fd => MIN_FD ≤ fd)).length :=
  ⟨by decide, claim_C8.2 2 [7, 9] [0, 1, 2, 7, 9] (by decide) (by decide)⟩

/-! ## C5 and C7: the broker accept loop -/

theorem serveLoop_send_uid :
    ∀ (evs : List ConnEvent) (acc : List BrokerAction) (uid : Nat) (fds : List Int),
    (∀ x ∈ acc, ∀ u l, x = .spawnedSend u l → u = uid) →
    ∀ x ∈ (serveLoop uid fds evs acc).actions, ∀ u l, x = .spawnedSend u l → u = uid := by
  intro evs
  induction evs with
  | nil =>
    intro acc uid fds hacc x hx
    exact hacc x (List.mem_reverse.mp (by simpa [serveLoop, ServeResult.actions] using hx))
  | cons e rest ih =>
    intro acc uid fds hacc
    cases e with
    | acceptError =>
      intro x hx
      exact hacc x (List.mem_reverse.mp (by simpa [serveLoop, ServeResult.actions] using hx))
    | credsError =>
      intro x hx
      exact hacc x (List.mem_reverse.mp (by simpa [serveLoop, ServeResult.actions] using hx))
    | conn u s =>
      by_cases hu : u = uid
      · subst hu
        intro x hx
        refine ih (.spawnedSend u fds :: acc) u fds ?_ x ?_
        · intro y hy v l hvl
          rcases List.mem_cons.mp hy with rfl | hy
          · cases hvl; rfl
          · exact hacc y hy v l hvl
        · simpa [serveLoop] using hx
      · intro x hx
        refine ih (.warned u :: acc) uid fds ?_ x ?_
        · intro y hy v l hvl
          rcases List.mem_cons.mp hy with rfl | hy
          · cases hvl
          · exact hacc y hy v l hvl
        · simpa [serveLoop, hu] using hx

/-- C5: a descriptor send is spawned only for a connection whose peer
effective UID equals the configured UID (server.rs:99-111); any other UID
is warned about and the connection dropped, after which the loop goes on to
the next accept. -/
theorem claim_C5 (c : BrokerConfig) (k : Bool) (g : String → Option Int)
    (evs : List ConnEvent) :
    (∀ x ∈ (serve c k g evs).actions, ∀ u l, x = BrokerAction.spawnedSend u l →
      u = c.clientUid)
    ∧ (∀ (u : Nat) (s : Bool) (fds : List Int) (rest : List ConnEvent)
        (acc : List BrokerAction), u ≠ c.clientUid →
        serveLoop c.clientUid fds (ConnEvent.conn u s :: rest) acc =
          serveLoop c.clientUid fds rest (BrokerAction.warned u :: acc)) := by
  constructor
  · cases k with
    | false =>
      intro x hx
      simp [serve, ServeResult.actions] at hx
    | true =>
      cases ho : openAll c.paths g with
      | none =>
        intro x hx
        simp [serve, ho, ServeResult.actions] at hx
      | some pf =>
        have h := serveLoop_send_uid evs [] c.clientUid (pf ++ c.fds.getD [])
          (by intro x hx; cases hx)
        intro x hx
        refine h x ?_
        simpa [serve, ho] using hx
  · intro u s fds rest acc hu
    simp [serveLoop, hu]

/-- C5 witness: a UID-0 connection against an expected UID of 1000 is
warned about and the loop continues with the remaining events. -/
theorem claim_C5_witness :
    (0 : Nat) ≠ cfg1000.clientUid ∧
    serveLoop cfg1000.clientUid [5, 6] [ConnEvent.conn 0 true] [] =
      serveLoop cfg1000.clientUid [5, 6] [] [BrokerAction.warned 0] :=
  ⟨by decide, (claim_C5 cfg1000 true noOpen [ConnEvent.conn 0 true]).2 0 true
    [5, 6] [] [] (by decide)⟩

/-- C7 counterexample: the claim says only binding failures are fatal to
the broker, but an `accept` failure also propagates out of `serve`
(server.rs:88-90 uses `?`), terminating the loop. -/
theorem claim_C7_counterexample :
    serve cfg1000 true noOpen [ConnEvent.acceptError] = .fatal .accept [] ∧
    FatalStep.accept ≠ FatalStep.bind := by
  decide

theorem serveLoop_running :
    ∀ (evs : List ConnEvent) (uid : Nat) (fds : List Int) (acc : List BrokerAction),
    (∀ e ∈ evs, ∃ u s, e = ConnEvent.conn u s) →
    ∃ acts, serveLoop uid fds evs acc = .running acts := by
  intro evs
  induction evs with
  | nil => intro uid fds acc _; exact ⟨acc.reverse, rfl⟩
  | cons e rest ih =>
    intro uid fds acc hc
    obtain ⟨u, s, rfl⟩ := hc e (List.mem_cons_self e rest)
    have hrest : ∀ e ∈ rest, ∃ u s, e = ConnEvent.conn u s := fun e he =>
      hc e (List.mem_cons_of_mem _ he)
    by_cases hu : u = uid
    · subst hu
      rw [show serveLoop u fds (ConnEvent.conn u s :: rest) acc =
        serveLoop u fds rest (.spawnedSend u fds :: acc) by simp [serveLoop]]
      exact ih u fds _ hrest
    · rw [show serveLoop uid fds (ConnEvent.conn u s :: rest) acc =
        serveLoop uid fds rest (.warned u :: acc) by simp [serveLoop, hu]]
      exact ih uid fds _ hrest

/-- C7 (amended): binding, path-opening, accept and peer-credential
failures are all fatal to the broker; the outcome of a descriptor send is
never consulted by the loop (the send runs in a detached task whose result
is discarded), so a send failure does not stop the accept loop; and when
bind and opens succeed and every accept yields a connection, the broker
never exits on its own. -/
theorem claim_C7 :
    (∀ (c : BrokerConfig) (g : String → Option Int) (evs : List ConnEvent),
      serve c false g evs = .fatal .bind [])
    ∧ (∀ (c : BrokerConfig) (g : String → Option Int) (evs : List ConnEvent),
        openAll c.paths g = none → serve c true g evs = .fatal .openPath [])
    ∧ (∀ (uid : Nat) (fds : List Int) (u : Nat) (s : Bool) (rest : List ConnEvent)
        (acc : List BrokerAction),
        serveLoop uid fds (ConnEvent.conn u s :: rest) acc =
          serveLoop uid fds (ConnEvent.conn u (!s) :: rest) acc)
    ∧ (∀ (c : BrokerConfig) (g : String → Option Int) (evs : List ConnEvent)
        (pf : List Int), openAll c.paths g = some pf →
        (∀ e ∈ evs, ∃ u s, e = ConnEvent.conn u s) →
        ∃ acts, serve c true g evs = .running acts) := by
  refine ⟨?_, ?_, ?_, ?_⟩
  · intro c g evs; rfl
  · intro c g evs ho; simp [serve, ho]
  · intro uid fds u s rest acc; rfl
  · intro c g evs pf ho hc
    obtain ⟨acts, hacts⟩ := serveLoop_running evs c.clientUid (pf ++ c.fds.getD []) [] hc
    exact ⟨acts, by simp [serve, ho, hacts]⟩

/-- C7 witness: with a successful bind, no paths to open, and two plain
connections, the broker is still running. -/
theorem claim_C7_witness :
    openAll cfg1000.paths noOpen = some [] ∧
    ∃ acts, serve cfg1000 true noOpen
      [ConnEvent.conn 0 true, ConnEvent.conn 1000 true] = .running acts :=
  ⟨rfl, claim_C7.2.2.2 cfg1000 noOpen [ConnEvent.conn 0 true, ConnEvent.conn 1000 true]
    [] rfl (by
      intro e he
      rcases List.mem_cons.mp he with rfl | he
      · exact ⟨0, true, rfl⟩
      · rcases List.mem_cons.mp he with rfl | he
        · exact ⟨1000, true, rfl⟩
        · cases he)⟩

/-! ## C2 and C9: the jobserver handshake parser -/

theorem parseI32_nonneg {s : String} {v : Int} (h : parseI32 s = some v) : 0 ≤ v := by
  simp only [parseI32] at h
  split_ifs at h <;> simp_all <;> omega

/-- C2: `parse_makeflags` returns a pair exactly when the input matches the
anchored pattern with byte-identical `-fds`/`-auth` halves and both halves
parsing as 32-bit signed integers; a non-matching input (the parser has no
"absent" input; an absent variable surfaces as an empty, hence
non-matching, string) is a regex-match error; a mismatched read half is a
file-descriptor-mismatch error naming `read`; a half overflowing `i32` is
a file-descriptor-parse error. -/
theorem claim_C2 :
    (∀ s : String, (∃ r w, parse_makeflags s = .ok (r, w)) ↔
      ∃ a b c d, matchMakeflags s = some (a, b, c, d) ∧ a = c ∧ b = d ∧
        (parseI32 a).isSome ∧ (parseI32 b).isSome)
    ∧ (∀ s, matchMakeflags s = none → parse_makeflags s = .error (.regexMatch s))
    ∧ parse_makeflags "-j --jobserver-fds=3,4 --jobserver-auth=5,4" =
        .error (.fileDescriptorMismatch "read" "3" "5")
    ∧ parse_makeflags
        "-j --jobserver-fds=18446744073709551615,4 --jobserver-auth=18446744073709551615,4" =
        .error (.fileDescriptorParse "18446744073709551615") := by
  refine ⟨?_, ?_, by decide, by decide⟩
  · intro s
    constructor
    · rintro ⟨r, w, h⟩
      cases hm : matchMakeflags s with
      | none => simp [parse_makeflags, hm] at h
      | some t =>
        obtain ⟨a, b, c, d⟩ := t
        simp only [parse_makeflags, hm] at h
        by_cases hac : a = c
        · by_cases hbd : b = d
          · simp only [hac, hbd, ne_eq, not_true_eq_false, if_false] at h
            cases h1 : parseI32 c with
            | none => simp [h1] at h
            | some x =>
              cases h2 : parseI32 d with
              | none => simp [h1, h2] at h
              | some y =>
                exact ⟨a, b, c, d, rfl, hac, hbd,
                  by rw [hac, h1]; rfl, by rw [hbd, h2]; rfl⟩
          · simp [hac, hbd] at h
        · simp [hac] at h
    · rintro ⟨a, b, c, d, hm, rfl, rfl, h1, h2⟩
      obtain ⟨x, hx⟩ := Option.isSome_iff_exists.mp h1
      obtain ⟨y, hy⟩ := Option.isSome_iff_exists.mp h2
      exact ⟨x, y, by simp [parse_makeflags, hm, hx, hy]⟩
  · intro s hm
    simp [parse_makeflags, hm]

/-- C2 witness: a non-matching input yields the regex-match error. -/
theorem claim_C2_witness :
    matchMakeflags "x" = none ∧ parse_makeflags "x" = .error (.regexMatch "x") :=
  ⟨by decide, claim_C2.2.1 "x" (by decide)⟩

/-- C9: every accepted input has byte-equal `-fds` and `-auth` capture
pairs, and both returned descriptors are non-negative. -/
theorem claim_C9 : ∀ (s : String) (r w : Int), parse_makeflags s = .ok (r, w) →
    (∃ a b, matchMakeflags s = some (a, b, a, b)) ∧ 0 ≤ r ∧ 0 ≤ w := by
  intro s r w h
  cases hm : matchMakeflags s with
  | none => simp [parse_makeflags, hm] at h
  | some t =>
    obtain ⟨a, b, c, d⟩ := t
    simp only [parse_makeflags, hm] at h
    by_cases hac : a = c
    · by_cases hbd : b = d
      · subst hac
        subst hbd
        simp only [ne_eq, not_true_eq_false, if_false] at h
        cases h1 : parseI32 a with
        | none => simp [h1] at h
        | some x =>
          cases h2 : parseI32 b with
          | none => simp [h1, h2] at h
          | some y =>
            simp only [h1, h2] at h
            obtain ⟨rfl, rfl⟩ : x = r ∧ y = w := by
              cases h
              exact ⟨rfl, rfl⟩
            exact ⟨⟨a, b, rfl⟩, parseI32_nonneg h1, parseI32_nonneg h2⟩
      · simp [hac, hbd] at h
    · simp [hac] at h

/-- C9 witness: the canonical valid handshake. -/
theorem claim_C9_witness :
    parse_makeflags "-j --jobserver-fds=3,4 --jobserver-auth=3,4" = .ok (3, 4) ∧
    ((∃ a b, matchMakeflags "-j --jobserver-fds=3,4 --jobserver-auth=3,4" =
      some (a, b, a, b)) ∧ (0 : Int) ≤ 3 ∧ (0 : Int) ≤ 4) :=
  ⟨by decide, claim_C9 "-j --jobserver-fds=3,4 --jobserver-auth=3,4" 3 4 (by decide)⟩

/-! ## C1: the retry policy of `docker` -/

theorem dockerLoop_ok_of (r : Nat → SimOutput) (a : List String) (m : List RetryPattern)
    (n k : Nat) (hs : (r k).success = true) (hkn : k ≤ n) :
    ∀ (f i : Nat), (∀ j, i ≤ j → j < k → (r j).success = false ∧
      (m.any fun p => p.isMatch (r j).stdout) = true) →
      i ≤ k → k - i ≤ f → dockerLoop r a m n i f = .ok (r k, k) := by
  intro f
  induction f with
  | zero =>
    intro i h hik hf
    have hik' : i = k := by omega
    subst hik'
    rw [dockerLoop.eq_def]
    simp [hs]
  | succ f ih =>
    intro i h hik hf
    rcases eq_or_lt_of_le hik with rfl | hlt
    · rw [dockerLoop.eq_def]
      simp [hs]
    · obtain ⟨hfail, hmatch⟩ := h i le_rfl hlt
      have hin : i < n := lt_of_lt_of_le hlt hkn
      rw [dockerLoop.eq_def]
      simp only [hfail, hmatch, hin, if_true, Bool.false_eq_true, if_false]
      exact ih (i + 1) (fun j hj1 hj2 => h j (by omega) hj2) (by omega) (by omega)

/-- C1 counterexample: the claim's scenario asks only that the failing
output contain the bare phrase `frontend grpc server closed unexpectedly`;
such an output matches none of the four retry regexes (the frontend regex
requires the full two-prefix signature, builder.rs:42-48), so the first
failure is reported immediately instead of the claimed success after ten
invocations. -/
theorem claim_C1_counterexample :
    ((List.range 9).all fun i =>
      !(cexBuildRun (i + 1)).success &&
        containsMatch FRONTEND_PHRASE.toList ((cexBuildRun (i + 1)).stdout).toList) = true
    ∧ (cexBuildRun 10).success = true
    ∧ docker cexBuildRun ["build"] (.yes DOCKER_BUILD_MAX_ATTEMPTS buildRetryMessages) =
        .error (.commandFailed "build") := by
  decide

/-- C1 (amended): a zero exit returns success at once; a nonzero exit whose
output matches none of the retry regexes, or arriving once ten attempts
have been made, is an immediate error carrying the space-joined argv; and a
builder whose first nine invocations fail with output *matching one of the
four retry regexes* (for example, containing the full frontend signature)
and whose tenth succeeds yields success after exactly ten invocations. -/
theorem claim_C1 :
    (∀ (r : Nat → SimOutput) (a : List String) (m : List RetryPattern) (n i f : Nat),
      (r i).success = true → dockerLoop r a m n i f = .ok (r i, i))
    ∧ (∀ (r : Nat → SimOutput) (a : List String) (m : List RetryPattern) (n i f : Nat),
      (r i).success = false → (m.any fun p => p.isMatch (r i).stdout) = false →
      dockerLoop r a m n i f = .error (.commandFailed (String.intercalate " " a)))
    ∧ (∀ (r : Nat → SimOutput) (a : List String) (m : List RetryPattern) (n i f : Nat),
      (r i).success = false → ¬ i < n →
      dockerLoop r a m n i f = .error (.commandFailed (String.intercalate " " a)))
    ∧ (∀ (r : Nat → SimOutput) (a : List String),
      (∀ j, 1 ≤ j → j ≤ 9 → (r j).success = false ∧
        (buildRetryMessages.any fun p => p.isMatch (r j).stdout) = true) →
      (r 10).success = true →
      docker r a (.yes DOCKER_BUILD_MAX_ATTEMPTS buildRetryMessages) = .ok (r 10, 10)) := by
  refine ⟨?_, ?_, ?_, ?_⟩
  · intro r a m n i f h
    rw [dockerLoop.eq_def]
    simp [h]
  · intro r a m n i f h1 h2
    rw [dockerLoop.eq_def]
    simp [h1, h2]
  · intro r a m n i f h1 h3
    rw [dockerLoop.eq_def]
    simp only [h1, Bool.false_eq_true, if_false, h3, if_true]
    split <;> rfl
  · intro r a h hs
    show dockerLoop r a buildRetryMessages 10 1 10 = .ok (r 10, 10)
    exact dockerLoop_ok_of r a buildRetryMessages 10 10 hs (le_refl 10) 10 1
      (fun j hj1 hj2 => h j hj1 (by omega)) (by omega) (by omega)

/-- C1 witness: nine failures carrying the full frontend signature followed
by a success give overall success after ten invocations. -/
theorem claim_C1_witness :
    (∀ j, 1 ≤ j → j ≤ 9 → (okBuildRun j).success = false ∧
      (buildRetryMessages.any fun p => p.isMatch (okBuildRun j).stdout) = true) ∧
    docker okBuildRun ["build"] (.yes DOCKER_BUILD_MAX_ATTEMPTS buildRetryMessages) =
      .ok (okBuildRun 10, 10) := by
  have hj : ∀ j, 1 ≤ j → j ≤ 9 → (okBuildRun j).success = false ∧
      (buildRetryMessages.any fun p => p.isMatch (okBuildRun j).stdout) = true := by
    intro j h1 h9
    have hlt : j < 10 := by omega
    constructor
    · simp [okBuildRun, hlt]
    · simp only [okBuildRun, if_pos hlt]
      decide
  exact ⟨hj, claim_C1.2.2.2 okBuildRun ["build"] hj (by decide)⟩

/-! ## C3: the pre-build clean step -/

theorem hasFile_false_iff {s : Fs} {p : FsPath} :
    s.hasFile p = false ↔ ∀ f ∈ s.files, f.path ≠ p := by
  simp [Fs.hasFile]

theorem filter_eq_self_of_hasFile_false {s : Fs} {p : FsPath}
    (h : s.hasFile p = false) :
    s.files.filter (fun f => !(f.path == p)) = s.files := by
  apply List.filter_eq_self.mpr
  intro f hf
  simpa using hasFile_false_iff.mp h f hf

theorem ne_of_length_lt {p q : FsPath} (h : p.length < q.length) : q ≠ p := by
  intro he
  rw [he] at h
  omega

theorem addAncestors_mem : ∀ (f : Nat) (p top : FsPath) (dirs : List FsPath),
    top <+: p → p ≠ top →
    ∀ q ∈ addAncestors f p top dirs, q ∈ dirs ∨ (top <+: q ∧ q ≠ top) := by
  intro f
  induction f with
  | zero => intro p top dirs _ _ q hq; exact Or.inl hq
  | succ f ih =>
    intro p top dirs hp hne q hq
    rw [addAncestors] at hq
    by_cases he : p.isEmpty
    · rw [if_pos he] at hq; exact Or.inl hq
    · rw [if_neg he] at hq
      by_cases hg : (p.dropLast == top || dirs.contains p.dropLast) = true
      · rw [if_pos hg] at hq; exact Or.inl hq
      · rw [if_neg hg] at hq
        have hgne : p.dropLast ≠ top := by
          intro hc
          apply hg
          simp [hc]
        have hpre : top <+: p.dropLast := by
          obtain ⟨t, rfl⟩ := hp
          have ht : t ≠ [] := by
            intro hc; subst hc; exact hne (List.append_nil top)
          rw [dropLast_append' top t ht]
          exact List.prefix_append _ _
        rcases ih p.dropLast top (p.dropLast :: dirs) hpre hgne q hq with hq' | hq'
        · rcases List.mem_cons.mp hq' with rfl | hq''
          · exact Or.inr ⟨hpre, hgne⟩
          · exact Or.inl hq''
        · exact Or.inr hq'

theorem prefix_antisymm' {x y : FsPath} (h1 : x <+: y) (h2 : y <+: x) : x = y := by
  obtain ⟨u, hu⟩ := h1
  obtain ⟨v, hv⟩ := h2
  have h3 : x ++ (u ++ v) = x ++ [] := by
    rw [← List.append_assoc, hu, hv, List.append_nil]
  have h4 := List.append_cancel_left h3
  have h5 := (List.append_eq_nil.mp h4).1
  rw [← hu, h5, List.append_nil]

theorem addAncestors_subset : ∀ (f : Nat) (p top : FsPath) (dirs : List FsPath),
    ∀ x ∈ dirs, x ∈ addAncestors f p top dirs := by
  intro f
  induction f with
  | zero => intro p top dirs x hx; exact hx
  | succ f ih =>
    intro p top dirs x hx
    rw [addAncestors]
    by_cases he : p.isEmpty
    · rw [if_pos he]; exact hx
    · rw [if_neg he]
      by_cases hg : (p.dropLast == top || dirs.contains p.dropLast) = true
      · rw [if_pos hg]; exact hx
      · rw [if_neg hg]
        exact ih _ _ _ x (List.mem_cons_of_mem _ hx)

theorem addAncestors_head (f : Nat) (p top : FsPath) (dirs : List FsPath)
    (hf : 0 < f) (hp : p ≠ []) :
    p.dropLast = top ∨ p.dropLast ∈ addAncestors f p top dirs := by
  cases f with
  | zero => omega
  | succ f =>
    by_cases hbeq : (p.dropLast == top) = true
    · exact Or.inl (eq_of_beq hbeq)
    · by_cases hcont : (dirs.contains p.dropLast) = true
      · right
        refine addAncestors_subset (f + 1) p top dirs p.dropLast ?_
        simpa using hcont
      · right
        rw [addAncestors]
        rw [if_neg (by simp [hp])]
        rw [if_neg (show ¬ (p.dropLast == top || dirs.contains p.dropLast) = true by
          rw [Bool.or_eq_true]
          rintro (h | h)
          exacts [hbeq h, hcont h])]
        exact addAncestors_subset f _ _ _ p.dropLast (List.mem_cons_self _ _)

theorem ClosureAt_mono {b o : FsPath} {d1 d2 : List FsPath} {x : FsPath}
    (hsub : ∀ y ∈ d1, y ∈ d2) (h : ClosureAt b o d1 x) : ClosureAt b o d2 x := by
  constructor
  · intro hx
    rcases h.1 hx with h' | h'
    · exact Or.inl h'
    · exact Or.inr (hsub _ h')
  · intro hx
    rcases h.2 hx with h' | h'
    · exact Or.inl h'
    · exact Or.inr (hsub _ h')

theorem ClosureAt_of_strict {b o : FsPath} (h1 : ¬ b <+: o) (h2 : ¬ o <+: b)
    {top : FsPath} (htop : top = b ∨ top = o) {p : FsPath} (hp : top <+: p)
    {dirs : List FsPath} (hq : p.dropLast = top ∨ p.dropLast ∈ dirs) :
    ClosureAt b o dirs p := by
  have hcomp : ¬ (b <+: o ∨ o <+: b) := fun h => h.elim h1 h2
  rcases htop with rfl | rfl
  · exact ⟨fun _ => hq,
      fun hx => absurd (List.prefix_or_prefix_of_prefix hp hx.1) hcomp⟩
  · exact ⟨fun hx => absurd (List.prefix_or_prefix_of_prefix hx.1 hp) hcomp,
      fun _ => hq⟩

theorem ClosureAt_proj {b o top : FsPath} (htop : top = b ∨ top = o)
    {dirs : List FsPath} {x : FsPath} (hc : ClosureAt b o dirs x)
    (hx : top <+: x) (hnx : x ≠ top) : x.dropLast = top ∨ x.dropLast ∈ dirs := by
  rcases htop with rfl | rfl
  · exact hc.1 ⟨hx, hnx⟩
  · exact hc.2 ⟨hx, hnx⟩

theorem ne_nil_of_strict_prefix {top p : FsPath} (hp : top <+: p) (hne : p ≠ top) :
    p ≠ [] := by
  intro h0
  subst h0
  have h1 : top.length ≤ 0 := by simpa using hp.length_le
  have h2 : top = [] := List.length_eq_zero.mp (by omega)
  exact hne h2.symm

theorem dropLast_strict_prefix {top p : FsPath} (hp : top <+: p) (hne : p ≠ top) :
    top <+: p.dropLast := by
  obtain ⟨t, rfl⟩ := hp
  have ht : t ≠ [] := by
    intro h0
    subst h0
    exact hne (List.append_nil top)
  rw [dropLast_append' top t ht]
  exact List.prefix_append _ _

theorem addAncestors_closedAux {b o : FsPath} (h1 : ¬ b <+: o) (h2 : ¬ o <+: b)
    {top : FsPath} (htop : top = b ∨ top = o) :
    ∀ (f : Nat) (p : FsPath) (dirs : List FsPath),
    top <+: p → p ≠ top → p.length ≤ f →
    (∀ x ∈ dirs, x = p ∨ ClosureAt b o dirs x) →
    ParentClosed b o (addAncestors f p top dirs) := by
  intro f
  induction f with
  | zero =>
    intro p dirs hp hne hf _
    have hp0 : p = [] := List.length_eq_zero.mp (by omega)
    exact absurd hp0 ( ne_nil_of_strict_prefix hp hne)
  | succ f ih =>
    intro p dirs hp hne hf hexc
    have hpne : p ≠ [] := ne_nil_of_strict_prefix hp hne
    have hqpre : top <+: p.dropLast := dropLast_strict_prefix hp hne
    rw [addAncestors]
    rw [if_neg (by simp [hpne])]
    by_cases hg : (p.dropLast == top || dirs.contains p.dropLast) = true
    · rw [if_pos hg]
      have hch : p.dropLast = top ∨ p.dropLast ∈ dirs := by
        rcases Bool.or_eq_true _ _ ▸ hg with h' | h'
        · exact Or.inl (eq_of_beq h')
        · exact Or.inr (by simpa using h')
      intro x hx
      rcases hexc x hx with rfl | hcx
      · exact ClosureAt_of_strict h1 h2 htop hp hch
      · exact hcx
    · rw [if_neg hg]
      have hgne : p.dropLast ≠ top := by
        intro h'
        apply hg
        simp [h']
      have hlen : p.dropLast.length ≤ f := by
        have := List.length_dropLast p
        have hp1 : 0 < p.length := List.length_pos.mpr hpne
        omega
      refine ih p.dropLast (p.dropLast :: dirs) hqpre hgne hlen ?_
      intro x hx
      rcases List.mem_cons.mp hx with rfl | hx'
      · exact Or.inl rfl
      · rcases hexc x hx' with rfl | hcx
        · exact Or.inr (ClosureAt_of_strict h1 h2 htop hp
            (Or.inr (List.mem_cons_self _ _)))
        · exact Or.inr (ClosureAt_mono (fun y hy => List.mem_cons_of_mem _ hy) hcx)

theorem closed_chain {b o : FsPath} (h1 : ¬ b <+: o) (h2 : ¬ o <+: b)
    {top : FsPath} (htop : top = b ∨ top = o) :
    ∀ (n : Nat) (t : FsPath) (S : List FsPath),
    t.length ≤ n → top <+: t → t ≠ top →
    (t.dropLast = top ∨ t.dropLast ∈ S) →
    ParentClosed b o S →
    ∀ q, top <+: q → q ≠ top → q <+: t → q ≠ t → q ∈ S := by
  intro n
  induction n with
  | zero =>
    intro t S hlen hpt hnt _ _ q _ _ _ _
    have ht0 : t = [] := List.length_eq_zero.mp (by omega)
    exact absurd ht0 ( ne_nil_of_strict_prefix hpt hnt)
  | succ n ih =>
    intro t S hlen hpt hnt hch hcl q hq1 hq2 hq3 hq4
    obtain ⟨r, hr⟩ := hq3
    have hrne : r ≠ [] := by
      intro h0
      subst h0
      rw [List.append_nil] at hr
      exact hq4 hr
    have hqd : q <+: t.dropLast := by
      rw [← hr, dropLast_append' q r hrne]
      exact List.prefix_append _ _
    rcases hch with hch | hch
    · rw [hch] at hqd
      exact absurd (prefix_antisymm' hqd hq1) hq2
    · by_cases hqt' : q = t.dropLast
      · rw [hqt']
        exact hch
      · have ht'top : top <+: t.dropLast := dropLast_strict_prefix hpt hnt
        by_cases ht't : t.dropLast = top
        · rw [ht't] at hqd
          exact absurd (prefix_antisymm' hqd hq1) hq2
        · have hch' := ClosureAt_proj htop (hcl _ hch) ht'top ht't
          have hlen' : t.dropLast.length ≤ n := by
            have := List.length_dropLast t
            have ht1 : 0 < t.length :=
              List.length_pos.mpr ( ne_nil_of_strict_prefix hpt hnt)
            omega
          exact ih t.dropLast S hlen' ht'top ht't hch' hcl q hq1 hq2 hqd hqt'

theorem hasFile_true_iff {s : Fs} {p : FsPath} :
    s.hasFile p = true ↔ ∃ f ∈ s.files, f.path = p := by
  simp [Fs.hasFile]

theorem hasFile_filter_ne {s : Fs} {m t : FsPath} (h : s.hasFile m = true)
    (hne : m ≠ t) :
    Fs.hasFile ⟨s.files.filter (fun f => !(f.path == t)), s.dirs⟩ m = true := by
  obtain ⟨f, hf, hfm⟩ := hasFile_true_iff.mp h
  refine hasFile_true_iff.mpr ⟨f, List.mem_filter.mpr ⟨hf, ?_⟩, hfm⟩
  simp [hfm, hne]

theorem cleanupOne_spec {s : Fs} {p top : FsPath} (dirs : List FsPath)
    (hd : s.hasDir p = false) (hp : top <+: p) (hne : p ≠ top) :
    ∃ d', cleanupOne s p top dirs =
        .ok (⟨s.files.filter (fun f => !(f.path == p)), s.dirs⟩, d') ∧
      (∀ q ∈ d', q ∈ dirs ∨ (top <+: q ∧ q ≠ top)) ∧
      (∀ q ∈ dirs, q ∈ d') ∧
      (s.hasFile p = true → p.dropLast = top ∨ p.dropLast ∈ d') ∧
      (∀ b o : FsPath, ¬ b <+: o → ¬ o <+: b → (top = b ∨ top = o) →
        ParentClosed b o dirs → ParentClosed b o d') := by
  unfold cleanupOne
  rw [hd]
  by_cases hf : s.hasFile p
  · refine ⟨addAncestors p.length p top dirs, ?_, ?_, ?_, ?_, ?_⟩
    · simp [hf, Fs.removeFile]
    · exact addAncestors_mem p.length p top dirs hp hne
    · exact addAncestors_subset p.length p top dirs
    · intro _
      exact addAncestors_head p.length p top dirs
        (List.length_pos.mpr ( ne_nil_of_strict_prefix hp hne))
        ( ne_nil_of_strict_prefix hp hne)
    · intro b o h1 h2 htop hcl
      exact addAncestors_closedAux h1 h2 htop p.length p dirs hp hne le_rfl
        (fun x hx => Or.inr (hcl x hx))
  · have hf' : s.hasFile p = false := by simpa using hf
    refine ⟨dirs, ?_, fun q hq => Or.inl hq, fun q hq => hq, ?_, ?_⟩
    · rw [hf']
      simp only [Bool.not_false, Bool.and_self, if_true]
      rw [filter_eq_self_of_hasFile_false hf']
    · intro hcontra
      rw [hf'] at hcontra
      cases hcontra
    · intro b o _ _ _ hcl
      exact hcl

theorem hasDir_mk (files : List FsFile) (dirs : List FsPath) (p : FsPath) :
    Fs.hasDir ⟨files, dirs⟩ p = dirs.contains p := rfl

theorem cleanLoop_spec (b o : FsPath) (hdj1 : ¬ b <+: o) (hdj2 : ¬ o <+: b) :
    ∀ (l : List FsPath) (s : Fs) (dirs : List FsPath),
    l.Nodup →
    (∀ m ∈ l, b <+: m ∧ b.length < m.length) →
    (∀ m ∈ l, s.hasDir (outTarget b o m) = false) →
    (∀ m ∈ l, s.hasDir m = false) →
    (∀ m ∈ l, s.hasFile m = true) →
    ParentClosed b o dirs →
    ∃ s' d', cleanLoop b o l s dirs = .ok (s', d') ∧
      s'.files = s.files.filter (fun f => !((cleanTargets b o l).contains f.path)) ∧
      s'.dirs = s.dirs ∧
      (∀ q ∈ d', q ∈ dirs ∨ GoodDir b o q) ∧
      (∀ q ∈ dirs, q ∈ d') ∧
      ParentClosed b o d' ∧
      (∀ m ∈ l, m.dropLast = b ∨ m.dropLast ∈ d') ∧
      (∀ m ∈ l, s.hasFile (outTarget b o m) = true →
        (outTarget b o m).dropLast = o ∨ (outTarget b o m).dropLast ∈ d') := by
  intro l
  induction l with
  | nil =>
    intro s dirs _ _ _ _ _ hclosed
    refine ⟨s, dirs, rfl, ?_, rfl, fun q hq => Or.inl hq, fun q hq => hq, hclosed,
      fun m hm => absurd hm (List.not_mem_nil m), fun m hm => absurd hm (List.not_mem_nil m)⟩
    simp [cleanTargets]
  | cons m ms ih =>
    intro s dirs hnd hunder hdo hdm hfile hclosed
    obtain ⟨hbm, hlm⟩ := hunder m (List.mem_cons_self m ms)
    obtain ⟨hot, hol⟩ := outTarget_under (b := b) (o := o) (m := m) hbm hlm
    have hpnotin : m ∉ ms := (List.nodup_cons.mp hnd).1
    have hmoutne : m ≠ outTarget b o m := by
      intro he
      exact not_under_both hdj1 hdj2 hbm (he ▸ hot)
    obtain ⟨d1, heq1, hd1mem, hd1sub, hd1ch, hd1cl⟩ := cleanupOne_spec dirs
      (hdo m (List.mem_cons_self m ms)) hot (ne_of_length_lt hol)
    set s1 : Fs := ⟨s.files.filter (fun f => !(f.path == outTarget b o m)), s.dirs⟩
      with hs1
    have hd1m : s1.hasDir m = false := by
      rw [hs1, hasDir_mk]
      exact hdm m (List.mem_cons_self m ms)
    have hfm1 : s1.hasFile m = true := by
      rw [hs1]
      exact hasFile_filter_ne (hfile m (List.mem_cons_self m ms)) hmoutne
    obtain ⟨d2, heq2, hd2mem, hd2sub, hd2ch, hd2cl⟩ := cleanupOne_spec d1
      hd1m hbm (ne_of_length_lt hlm)
    set s2 : Fs := ⟨s1.files.filter (fun f => !(f.path == m)), s1.dirs⟩ with hs2
    have hclosed1 : ParentClosed b o d1 := hd1cl b o hdj1 hdj2 (Or.inr rfl) hclosed
    have hclosed2 : ParentClosed b o d2 := hd2cl b o hdj1 hdj2 (Or.inl rfl) hclosed1
    have hchm : m.dropLast = b ∨ m.dropLast ∈ d2 := hd2ch hfm1
    have hrest1 : ∀ x ∈ ms, s2.hasDir (outTarget b o x) = false := by
      intro x hx
      rw [hs2, hasDir_mk]
      exact hdo x (List.mem_cons_of_mem _ hx)
    have hrest2 : ∀ x ∈ ms, s2.hasDir x = false := by
      intro x hx
      rw [hs2, hasDir_mk]
      exact hdm x (List.mem_cons_of_mem _ hx)
    have hrest3 : ∀ x ∈ ms, s2.hasFile x = true := by
      intro x hx
      have hxm : x ≠ m := fun he => hpnotin (he ▸ hx)
      have hxout : x ≠ outTarget b o m := by
        intro he
        exact not_under_both hdj1 hdj2 (hunder x (List.mem_cons_of_mem _ hx)).1
          (he ▸ hot)
      have hstep1 : s1.hasFile x = true := by
        rw [hs1]
        exact hasFile_filter_ne (hfile x (List.mem_cons_of_mem _ hx)) hxout
      rw [hs2]
      exact hasFile_filter_ne hstep1 hxm
    obtain ⟨s3, d3, heq3, hf3, hdir3, hd3mem, hd3sub, hd3cl, hd3chm, hd3cho⟩ :=
      ih s2 d2 (List.nodup_cons.mp hnd).2
        (fun x hx => hunder x (List.mem_cons_of_mem _ hx)) hrest1 hrest2 hrest3 hclosed2
    have houtm : s.hasFile (outTarget b o m) = true →
        (outTarget b o m).dropLast = o ∨ (outTarget b o m).dropLast ∈ d3 := by
      intro hso
      rcases hd1ch hso with h' | h'
      · exact Or.inl h'
      · exact Or.inr (hd3sub _ (hd2sub _ h'))
    refine ⟨s3, d3, ?_, ?_, ?_, ?_, ?_, hd3cl, ?_, ?_⟩
    · simp only [cleanLoop, heq1, heq2]
      exact heq3
    · rw [hf3, hs2, hs1]
      simp only [List.filter_filter]
      apply List.filter_congr
      intro f _
      simp only [cleanTargets, List.contains_cons]
      cases h1 : f.path == outTarget b o m <;> cases h2 : f.path == m <;> simp [h1, h2]
    · rw [hdir3, hs2, hs1]
    · intro q hq
      rcases hd3mem q hq with hq' | hg
      · rcases hd2mem q hq' with hq'' | hg2
        · rcases hd1mem q hq'' with hq3 | hg1
          · exact Or.inl hq3
          · exact Or.inr (Or.inl hg1)
        · exact Or.inr (Or.inr hg2)
      · exact Or.inr hg
    · exact fun q hq => hd3sub _ (hd2sub _ (hd1sub _ hq))
    · intro x hx
      rcases List.mem_cons.mp hx with rfl | hx'
      · rcases hchm with h' | h'
        · exact Or.inl h'
        · exact Or.inr (hd3sub _ h')
      · exact hd3chm x hx'
    · intro x hx hso
      rcases List.mem_cons.mp hx with rfl | hx'
      · exact houtm hso
      · by_cases he : outTarget b o x = outTarget b o m
        · rw [he]
          rw [he] at hso
          exact houtm hso
        · have hox := outTarget_under (b := b) (o := o) (m := x)
            (hunder x (List.mem_cons_of_mem _ hx')).1
            (hunder x (List.mem_cons_of_mem _ hx')).2
          have hne2 : outTarget b o x ≠ m := by
            intro hemm
            exact not_under_both hdj1 hdj2 hbm (hemm ▸ hox.1)
          have hs1has : s1.hasFile (outTarget b o x) = true := by
            rw [hs1]
            exact hasFile_filter_ne hso he
          have hs2has : s2.hasFile (outTarget b o x) = true := by
            rw [hs2]
            exact hasFile_filter_ne hs1has hne2
          exact hd3cho x hx' hs2has

theorem removeEmptyDirs_files : ∀ (l : List FsPath) (s : Fs),
    (removeEmptyDirs l s).files = s.files := by
  intro l
  induction l with
  | nil => intro s; rfl
  | cons d ds ih =>
    intro s
    rw [removeEmptyDirs]
    split
    · rw [ih]; rfl
    · rw [ih]

theorem removeEmptyDirs_dirs_subset : ∀ (l : List FsPath) (s : Fs) (d : FsPath),
    d ∈ (removeEmptyDirs l s).dirs → d ∈ s.dirs := by
  intro l
  induction l with
  | nil => intro s d hd; exact hd
  | cons q qs ih =>
    intro s d hd
    rw [removeEmptyDirs] at hd
    split at hd
    · have := ih _ _ hd
      exact List.mem_of_mem_filter this
    · exact ih _ _ hd

theorem removeEmptyDirs_keep : ∀ (l : List FsPath) (s : Fs) (x : FsPath),
    x ∈ s.dirs → (∀ q ∈ l, q ≠ x) → x ∈ (removeEmptyDirs l s).dirs := by
  intro l
  induction l with
  | nil => intro s x hx _; exact hx
  | cons q qs ih =>
    intro s x hx hq
    rw [removeEmptyDirs]
    split
    · refine ih _ _ ?_ (fun r hr => hq r (List.mem_cons_of_mem _ hr))
      simp only [Fs.removeDir, List.mem_filter]
      refine ⟨hx, ?_⟩
      have hne : ¬ x = q := fun hc => hq q (List.mem_cons_self q qs) hc.symm
      simp [hne]
    · exact ih _ _ hx (fun r hr => hq r (List.mem_cons_of_mem _ hr))

theorem mem_insertDesc {x p : FsPath} : ∀ l, x ∈ insertDesc p l → x = p ∨ x ∈ l := by
  intro l
  induction l with
  | nil =>
    intro h
    rw [insertDesc] at h
    exact Or.inl (List.mem_singleton.mp h)
  | cons q qs ih =>
    intro h
    rw [insertDesc] at h
    split at h
    · rcases List.mem_cons.mp h with rfl | h'
      · exact Or.inl rfl
      · exact Or.inr h'
    · rcases List.mem_cons.mp h with rfl | h'
      · exact Or.inr (List.mem_cons_self _ _)
      · rcases ih h' with h'' | h''
        · exact Or.inl h''
        · exact Or.inr (List.mem_cons_of_mem _ h'')

theorem mem_sortDesc {x : FsPath} : ∀ l, x ∈ sortDesc l → x ∈ l := by
  intro l
  induction l with
  | nil => intro h; exact h
  | cons a l ih =>
    intro h
    rcases mem_insertDesc _ h with rfl | h'
    · exact List.mem_cons_self _ _
    · exact List.mem_cons_of_mem _ (ih h')

theorem markers_nodup {fs : Fs} {b : FsPath}
    (h : (fs.files.map (fun f => f.path)).Nodup) :
    (findMarkerFiles fs b).Nodup :=
  List.Nodup.sublist (List.Sublist.map _ (List.filter_sublist _)) h

theorem markers_hasFile {fs : Fs} {b : FsPath} :
    ∀ m ∈ findMarkerFiles fs b, fs.hasFile m = true := by
  intro m hm
  obtain ⟨f, hf, rfl⟩ := List.mem_map.mp hm
  exact hasFile_true_iff.mpr ⟨f, List.mem_of_mem_filter hf, rfl⟩

theorem charListLt_trans : ∀ a b c : List Char,
    charListLt a b = true → charListLt b c = true → charListLt a c = true := by
  intro a
  induction a with
  | nil =>
    intro b c h1 h2
    cases b with
    | nil => exact absurd h1 (by simp [charListLt])
    | cons y ys =>
      cases c with
      | nil => exact absurd h2 (by simp [charListLt])
      | cons z zs => rfl
  | cons x xs ih =>
    intro b c h1 h2
    cases b with
    | nil => exact absurd h1 (by simp [charListLt])
    | cons y ys =>
      cases c with
      | nil => exact absurd h2 (by simp [charListLt])
      | cons z zs =>
        by_cases hxy : x = y
        · subst hxy
          simp only [charListLt, if_pos rfl] at h1
          by_cases hyz : x = z
          · subst hyz
            simp only [charListLt, if_pos rfl] at h2 ⊢
            exact ih ys zs h1 h2
          · simp only [charListLt, if_neg hyz] at h2 ⊢
            exact h2
        · simp only [charListLt, if_neg hxy] at h1
          rw [decide_eq_true_eq] at h1
          by_cases hyz : y = z
          · subst hyz
            simp only [charListLt, if_neg hxy]
            rw [decide_eq_true_eq]
            exact h1
          · simp only [charListLt, if_neg hyz] at h2
            rw [decide_eq_true_eq] at h2
            have hlt : x < z := lt_trans h1 h2
            simp only [charListLt, if_neg (ne_of_lt hlt)]
            rw [decide_eq_true_eq]
            exact hlt

theorem charListLt_asymm : ∀ a b : List Char,
    charListLt a b = true → charListLt b a = true → False := by
  intro a
  induction a with
  | nil =>
    intro b h1 h2
    cases b with
    | nil => exact absurd h1 (by simp [charListLt])
    | cons y ys => exact absurd h2 (by simp [charListLt])
  | cons x xs ih =>
    intro b h1 h2
    cases b with
    | nil => exact absurd h1 (by simp [charListLt])
    | cons y ys =>
      by_cases hxy : x = y
      · subst hxy
        simp only [charListLt, if_pos rfl] at h1 h2
        exact ih ys h1 h2
      · simp only [charListLt, if_neg hxy, if_neg (Ne.symm hxy)] at h1 h2
        rw [decide_eq_true_eq] at h1 h2
        exact lt_asymm h1 h2

theorem charListLt_trichot : ∀ a b : List Char,
    a = b ∨ charListLt a b = true ∨ charListLt b a = true := by
  intro a
  induction a with
  | nil =>
    intro b
    cases b with
    | nil => exact Or.inl rfl
    | cons y ys => exact Or.inr (Or.inl rfl)
  | cons x xs ih =>
    intro b
    cases b with
    | nil => exact Or.inr (Or.inr rfl)
    | cons y ys =>
      by_cases hxy : x = y
      · subst hxy
        rcases ih ys with h | h | h
        · exact Or.inl (by rw [h])
        · exact Or.inr (Or.inl (by simp [charListLt, h]))
        · exact Or.inr (Or.inr (by simp [charListLt, h]))
      · rcases lt_trichotomy x y with hlt | heq | hlt
        · exact Or.inr (Or.inl (by simp [charListLt, hxy, hlt]))
        · exact absurd heq hxy
        · exact Or.inr (Or.inr (by simp [charListLt, Ne.symm hxy, hlt]))

theorem strLt_trans {a b c : String} (h1 : strLt a b = true)
    (h2 : strLt b c = true) : strLt a c = true :=
  charListLt_trans _ _ _ h1 h2

theorem strLt_asymm {a b : String} (h1 : strLt a b = true)
    (h2 : strLt b a = true) : False :=
  charListLt_asymm _ _ h1 h2

theorem strLt_trichot (a b : String) :
    a = b ∨ strLt a b = true ∨ strLt b a = true := by
  rcases charListLt_trichot a.toList b.toList with h | h | h
  · exact Or.inl (String.ext h)
  · exact Or.inr (Or.inl h)
  · exact Or.inr (Or.inr h)

theorem strLt_ne {a b : String} (h : strLt a b = true) : a ≠ b := by
  intro he
  subst he
  exact strLt_asymm h h

theorem pathLe_total : ∀ a b : FsPath, pathLe a b = true ∨ pathLe b a = true := by
  intro a
  induction a with
  | nil => intro b; exact Or.inl rfl
  | cons x xs ih =>
    intro b
    cases b with
    | nil => exact Or.inr rfl
    | cons y ys =>
      by_cases hxy : x = y
      · subst hxy
        rcases ih ys with h | h
        · left; simp [pathLe, h]
        · right; simp [pathLe, h]
      · rcases strLt_trichot x y with heq | hlt | hlt
        · exact absurd heq hxy
        · left; simp [pathLe, hxy, hlt]
        · right; simp [pathLe, Ne.symm hxy, hlt]

theorem pathLe_antisymm :
    ∀ a b : FsPath, pathLe a b = true → pathLe b a = true → a = b := by
  intro a
  induction a with
  | nil =>
    intro b h1 h2
    cases b with
    | nil => rfl
    | cons y ys => exact absurd h2 (by simp [pathLe])
  | cons x xs ih =>
    intro b h1 h2
    cases b with
    | nil => exact absurd h1 (by simp [pathLe])
    | cons y ys =>
      by_cases hxy : x = y
      · subst hxy
        simp only [pathLe, if_pos rfl] at h1 h2
        rw [ih ys h1 h2]
      · simp only [pathLe, if_neg hxy, if_neg (Ne.symm hxy)] at h1 h2
        exact (strLt_asymm h1 h2).elim

theorem pathLe_trans :
    ∀ a b c : FsPath, pathLe a b = true → pathLe b c = true → pathLe a c = true := by
  intro a
  induction a with
  | nil => intro b c _ _; rfl
  | cons x xs ih =>
    intro b c h1 h2
    cases b with
    | nil => exact absurd h1 (by simp [pathLe])
    | cons y ys =>
      cases c with
      | nil => exact absurd h2 (by simp [pathLe])
      | cons z zs =>
        by_cases hxy : x = y
        · subst hxy
          simp only [pathLe, if_pos rfl] at h1
          by_cases hyz : x = z
          · subst hyz
            simp only [pathLe, if_pos rfl] at h2 ⊢
            exact ih ys zs h1 h2
          · simp only [pathLe, if_neg hyz] at h2 ⊢
            exact h2
        · simp only [pathLe, if_neg hxy] at h1
          by_cases hyz : y = z
          · subst hyz
            simp only [pathLe, if_neg hxy]
            exact h1
          · simp only [pathLe, if_neg hyz] at h2
            have hlt : strLt x z = true := strLt_trans h1 h2
            simp only [pathLe, if_neg (strLt_ne hlt)]
            exact hlt

theorem pathLe_of_prefix : ∀ a b : FsPath, a <+: b → pathLe a b = true := by
  intro a
  induction a with
  | nil => intro b _; rfl
  | cons x xs ih =>
    intro b h
    obtain ⟨r, hr⟩ := h
    subst hr
    simp only [List.cons_append, pathLe, if_pos rfl]
    exact ih (xs ++ r) (List.prefix_append _ _)

theorem mem_insertDesc_self (p : FsPath) : ∀ l, p ∈ insertDesc p l := by
  intro l
  induction l with
  | nil => rw [insertDesc]; exact List.mem_singleton.mpr rfl
  | cons q qs ih =>
    rw [insertDesc]
    split
    · exact List.mem_cons_self _ _
    · exact List.mem_cons_of_mem _ ih

theorem mem_insertDesc_of_mem {x : FsPath} (p : FsPath) :
    ∀ l, x ∈ l → x ∈ insertDesc p l := by
  intro l
  induction l with
  | nil => intro h; cases h
  | cons q qs ih =>
    intro h
    rw [insertDesc]
    split
    · exact List.mem_cons_of_mem _ h
    · rcases List.mem_cons.mp h with rfl | h'
      · exact List.mem_cons_self _ _
      · exact List.mem_cons_of_mem _ (ih h')

theorem mem_sortDesc_intro {x : FsPath} : ∀ l, x ∈ l → x ∈ sortDesc l := by
  intro l
  induction l with
  | nil => intro h; cases h
  | cons a l ih =>
    intro h
    rcases List.mem_cons.mp h with rfl | h'
    · exact mem_insertDesc_self _ _
    · exact mem_insertDesc_of_mem _ _ (ih h')

theorem insertDesc_pairwise {p : FsPath} :
    ∀ l, l.Pairwise (fun a c => pathLe c a = true) →
      (insertDesc p l).Pairwise (fun a c => pathLe c a = true) := by
  intro l
  induction l with
  | nil =>
    intro _
    rw [insertDesc]
    exact List.pairwise_singleton _ _
  | cons q qs ih =>
    intro h
    obtain ⟨hq, hqs⟩ := List.pairwise_cons.mp h
    rw [insertDesc]
    split
    · rename_i hle
      refine List.pairwise_cons.mpr ⟨?_, h⟩
      intro x hx
      rcases List.mem_cons.mp hx with rfl | hx'
      · exact hle
      · exact pathLe_trans _ _ _ (hq x hx') hle
    · rename_i hle
      refine List.pairwise_cons.mpr ⟨?_, ih hqs⟩
      intro x hx
      rcases mem_insertDesc _ hx with rfl | hx'
      · rcases pathLe_total x q with h' | h'
        · exact h'
        · exact absurd h' hle
      · exact hq x hx'

theorem sortDesc_pairwise : ∀ l : List FsPath,
    (sortDesc l).Pairwise (fun a c => pathLe c a = true) := by
  intro l
  induction l with
  | nil => exact List.Pairwise.nil
  | cons a l ih => exact insertDesc_pairwise _ ih

/-- The sweep removes every listed directory that is childless in the final
state: in the descending order, any directory child would have had its own
turn first, so a listed directory still present at the end kept a child.
-/
theorem removeEmptyDirs_removes : ∀ (l : List FsPath) (s : Fs) (d : FsPath),
    d ∈ l → l.Pairwise (fun a c => pathLe c a = true) →
    (∀ f ∈ (removeEmptyDirs l s).files, ¬ f.path.dropLast = d) →
    (∀ e ∈ (removeEmptyDirs l s).dirs, e.dropLast = d → e = d) →
    d ∉ (removeEmptyDirs l s).dirs := by
  intro l
  induction l with
  | nil => intro s d hd _ _ _; cases hd
  | cons q qs ih =>
    intro s d hd hpw hfc hdc
    obtain ⟨hq, hqs⟩ := List.pairwise_cons.mp hpw
    rcases List.mem_cons.mp hd with rfl | hd'
    · cases hemp : s.isEmptyDir d
      · simp only [removeEmptyDirs, hemp, Bool.false_eq_true, if_false] at hfc hdc ⊢
        cases hhd : s.hasDir d
        · intro hmem
          have hsub := removeEmptyDirs_dirs_subset _ _ _ hmem
          rw [Fs.hasDir] at hhd
          simp only [List.contains_eq_any_beq, List.any_eq_false] at hhd
          have := hhd _ hsub
          simp at this
        · cases ha1 : s.files.any (fun f => f.path.dropLast == d)
          · cases ha2 : s.dirs.any (fun e => e.dropLast == d && !(e == d))
            · rw [Fs.isEmptyDir, hhd, ha1, ha2] at hemp
              simp at hemp
            · obtain ⟨e, he, hprop⟩ := List.any_eq_true.mp ha2
              rw [Bool.and_eq_true] at hprop
              have hed : e.dropLast = d := by simpa using hprop.1
              have hene : e ≠ d := by simpa using hprop.2
              have henin : e ∉ qs := by
                intro hin
                have hdown := hq e hin
                have hup : pathLe d e = true := by
                  apply pathLe_of_prefix
                  rw [← hed]
                  exact List.dropLast_prefix e
                exact hene (pathLe_antisymm _ _ hup hdown).symm
              have hekeep : e ∈ (removeEmptyDirs qs s).dirs :=
                removeEmptyDirs_keep _ _ _ he (fun r hr hre => henin (hre ▸ hr))
              exact absurd (hdc e hekeep hed) hene
          · obtain ⟨f, hf, hfp⟩ := List.any_eq_true.mp ha1
            have hfd : f.path.dropLast = d := by simpa using hfp
            have hfin : f ∈ (removeEmptyDirs qs s).files := by
              rw [removeEmptyDirs_files]
              exact hf
            exact absurd hfd (hfc f hfin)
      · simp only [removeEmptyDirs, hemp, if_true] at hfc hdc ⊢
        intro hmem
        have hsub := removeEmptyDirs_dirs_subset _ _ _ hmem
        simp [Fs.removeDir, List.mem_filter] at hsub
    · cases hemp : s.isEmptyDir q
      · simp only [removeEmptyDirs, hemp, Bool.false_eq_true, if_false] at hfc hdc ⊢
        exact ih _ _ hd' hqs hfc hdc
      · simp only [removeEmptyDirs, hemp, if_true] at hfc hdc ⊢
        exact ih _ _ hd' hqs hfc hdc

/-- C3 (amended): the clean step removes, for each file under the marker
directory whose name ends in `.buildsys_marker`, the output-directory file
at the same relative path with the marker name's *final extension dropped*
(this equals stripping the `.buildsys_marker` suffix for every marker whose
base name is nonempty; a file named exactly `.buildsys_marker` maps to
itself) and the marker file itself, tolerating files that are already
missing; it then removes newly-empty ancestor directories in deepest-first
order — every strict intermediate ancestor of a removed target that is left
childless is removed — never removing the marker-directory or
output-directory roots; on an empty marker directory the step changes
nothing. -/
theorem claim_C3 (b o : FsPath) (fs : Fs)
    (h1 : ¬ b <+: o) (h2 : ¬ o <+: b)
    (hnodup : (fs.files.map (fun f => f.path)).Nodup)
    (h3 : ∀ m ∈ findMarkerFiles fs b, fs.hasDir (outTarget b o m) = false)
    (h4 : ∀ m ∈ findMarkerFiles fs b, fs.hasDir m = false) :
    ∃ fs', clean_build_files b o fs = .ok fs' ∧
      fs'.files = fs.files.filter
        (fun f => !((cleanTargets b o (findMarkerFiles fs b)).contains f.path)) ∧
      (b ∈ fs.dirs → b ∈ fs'.dirs) ∧ (o ∈ fs.dirs → o ∈ fs'.dirs) ∧
      (∀ d ∈ fs'.dirs, d ∈ fs.dirs) ∧
      (∀ d : FsPath,
        ((∃ m ∈ findMarkerFiles fs b, b <+: d ∧ d ≠ b ∧ d <+: m ∧ d ≠ m) ∨
         (∃ m ∈ findMarkerFiles fs b, fs.hasFile (outTarget b o m) = true ∧
           o <+: d ∧ d ≠ o ∧ d <+: outTarget b o m ∧ d ≠ outTarget b o m)) →
        (∀ f ∈ fs'.files, ¬ f.path.dropLast = d) →
        (∀ e ∈ fs'.dirs, e.dropLast = d → e = d) → d ∉ fs'.dirs) ∧
      (findMarkerFiles fs b = [] → fs' = fs) := by
  have hunder : ∀ m ∈ findMarkerFiles fs b, b <+: m ∧ b.length < m.length := by
    intro m hm
    obtain ⟨f, hf, rfl⟩ := List.mem_map.mp hm
    have hprop := (List.mem_filter.mp hf).2
    have hu : underDir b f.path = true := by
      cases hu : underDir b f.path
      · rw [hu] at hprop; simp at hprop
      · rfl
    exact underDir_iff.mp hu
  obtain ⟨s', d', hloop, hfiles, hdirs, hdprop, hdsub, hdcl, hchm, hcho⟩ :=
    cleanLoop_spec b o h1 h2 (findMarkerFiles fs b) fs [] (markers_nodup hnodup)
      hunder h3 h4 (fun m hm => markers_hasFile m hm)
      (fun x hx => absurd hx (List.not_mem_nil x))
  have hgood : ∀ q ∈ sortDesc d', q ≠ b ∧ q ≠ o := by
    intro q hq
    rcases hdprop q (mem_sortDesc _ hq) with hq' | hg
    · cases hq'
    · exact GoodDir.ne_roots h1 h2 hg
  refine ⟨removeEmptyDirs (sortDesc d') s', ?_, ?_, ?_, ?_, ?_, ?_, ?_⟩
  · simp only [clean_build_files, hloop]
  · rw [removeEmptyDirs_files, hfiles]
  · intro hb
    exact removeEmptyDirs_keep _ _ _ (hdirs ▸ hb) (fun q hq => (hgood q hq).1)
  · intro ho
    exact removeEmptyDirs_keep _ _ _ (hdirs ▸ ho) (fun q hq => (hgood q hq).2)
  · intro d hd
    have := removeEmptyDirs_dirs_subset _ _ _ hd
    rw [hdirs] at this
    exact this
  · intro d hcase hfc hdc
    have hdin : d ∈ d' := by
      rcases hcase with ⟨m, hm, hbd, hdneb, hdm, hdnem⟩ |
        ⟨m, hm, hsf, hod, hdneo, hdt, hdnet⟩
      · obtain ⟨hbm, hlm⟩ := hunder m hm
        exact closed_chain h1 h2 (Or.inl rfl) m.length m d' le_rfl hbm
          (ne_of_length_lt hlm) (hchm m hm) hdcl d hbd hdneb hdm hdnem
      · obtain ⟨hbm, hlm⟩ := hunder m hm
        obtain ⟨hot, hol⟩ := outTarget_under (b := b) (o := o) (m := m) hbm hlm
        exact closed_chain h1 h2 (Or.inr rfl) (outTarget b o m).length
          (outTarget b o m) d' le_rfl hot (ne_of_length_lt hol)
          (hcho m hm hsf) hdcl d hod hdneo hdt hdnet
    exact removeEmptyDirs_removes _ s' d (mem_sortDesc_intro _ hdin)
      (sortDesc_pairwise _) hfc hdc
  · intro hm0
    rw [hm0] at hloop
    rw [show cleanLoop b o [] fs [] = Except.ok (fs, ([] : List FsPath)) from rfl]
      at hloop
    injection hloop with h
    have hsf : fs = s' := congrArg Prod.fst h
    have hdf : ([] : List FsPath) = d' := congrArg Prod.snd h
    subst hsf
    subst hdf
    rfl

/-- C3 counterexample: for a marker file named exactly `.buildsys_marker`,
`set_extension("")` leaves the name unchanged (a name beginning with `.`
and containing no other `.` has no extension), so the code removes the
output file named `.buildsys_marker` — a path that is *not* in the removal
set described by the claim's "same relative path with the suffix
stripped". -/
theorem claim_C3_counterexample :
    clean_build_files ["state"] ["out"] cexCleanFs =
      .ok { files := [], dirs := [[], ["state"], ["out"]] } ∧
    (claimCleanTargets ["state"] ["out"]
      (findMarkerFiles cexCleanFs ["state"])).contains ["out", ".buildsys_marker"] =
      false ∧
    cexCleanFs.hasFile ["out", ".buildsys_marker"] = true := by
  decide

/-- C3 witness: the marker-sweep scenario (output `a/b.rpm`, state
`a/b.rpm.buildsys_marker`); concretely, both files are removed and both
newly-empty `a/` ancestor directories are swept away, leaving exactly the
two roots. -/
theorem claim_C3_witness :
    (¬ (["state"] : FsPath) <+: ["out"]) ∧ (¬ (["out"] : FsPath) <+: ["state"]) ∧
    (sweepFs.files.map (fun f => f.path)).Nodup ∧
    (∀ m ∈ findMarkerFiles sweepFs ["state"],
      sweepFs.hasDir (outTarget ["state"] ["out"] m) = false) ∧
    (∀ m ∈ findMarkerFiles sweepFs ["state"], sweepFs.hasDir m = false) ∧
    (clean_build_files ["state"] ["out"] sweepFs =
      .ok { files := [], dirs := [["state"], ["out"]] }) ∧
    ∃ fs', clean_build_files ["state"] ["out"] sweepFs = .ok fs' ∧
      fs'.files = sweepFs.files.filter
        (fun f => !((cleanTargets ["state"] ["out"]
          (findMarkerFiles sweepFs ["state"])).contains f.path)) ∧
      ((["state"] : FsPath) ∈ sweepFs.dirs → (["state"] : FsPath) ∈ fs'.dirs) ∧
      ((["out"] : FsPath) ∈ sweepFs.dirs → (["out"] : FsPath) ∈ fs'.dirs) ∧
      (∀ d ∈ fs'.dirs, d ∈ sweepFs.dirs) ∧
      (∀ d : FsPath,
        ((∃ m ∈ findMarkerFiles sweepFs ["state"],
            (["state"] : FsPath) <+: d ∧ d ≠ ["state"] ∧ d <+: m ∧ d ≠ m) ∨
         (∃ m ∈ findMarkerFiles sweepFs ["state"],
            sweepFs.hasFile (outTarget ["state"] ["out"] m) = true ∧
            (["out"] : FsPath) <+: d ∧ d ≠ ["out"] ∧
            d <+: outTarget ["state"] ["out"] m ∧
            d ≠ outTarget ["state"] ["out"] m)) →
        (∀ f ∈ fs'.files, ¬ f.path.dropLast = d) →
        (∀ e ∈ fs'.dirs, e.dropLast = d → e = d) → d ∉ fs'.dirs) ∧
      (findMarkerFiles sweepFs ["state"] = [] → fs' = sweepFs) :=
  ⟨by decide, by decide, by decide, by decide, by decide, by decide,
    claim_C3 ["state"] ["out"] sweepFs (by decide) (by decide) (by decide)
      (by decide) (by decide)⟩

/-! ## C4 and C10: the post-build artifact move -/

theorem isMarkerName_markerPath (p : FsPath) :
    isMarkerName (fileName (markerPath p)) = true := by
  rw [fileName_markerPath]
  exact isMarkerName_append _

theorem ne_of_markerName {x y : FsPath} (hy : isMarkerName (fileName y) = true)
    (hx : isMarkerName (fileName x) = false) : y ≠ x := by
  intro he
  rw [he] at hy
  rw [hy] at hx
  cases hx

theorem createFile_err_shape {s : Fs} {p : FsPath} {e : FsError}
    (h : createFile s p = .error e) : e = .fileCreate p := by
  unfold createFile at h
  split_ifs at h
  cases h
  rfl

theorem createFile_ok_files {s : Fs} {p : FsPath} {s1 : Fs}
    (h : createFile s p = .ok s1) :
    s1.files = s.files.filter (fun g => !(g.path == p)) ++ [⟨p, false, 0⟩] ∧
      s1.dirs = s.dirs := by
  unfold createFile at h
  split_ifs at h
  cases h
  exact ⟨rfl, rfl⟩

theorem createDirStep_files (d : FsPath) (acc : Fs × Option FsError) (i : Nat) :
    (createDirStep d acc i).1.files = acc.1.files := by
  obtain ⟨fs1, oe⟩ := acc
  cases oe with
  | some e => rfl
  | none =>
    show (match createDirOne fs1 (d.take (i + 1)) with
      | .error e => (fs1, some e)
      | .ok fs2 => (fs2, none)).1.files = fs1.files
    cases hc : createDirOne fs1 (d.take (i + 1)) with
    | error e => rfl
    | ok fs2 =>
      show fs2.files = fs1.files
      unfold createDirOne at hc
      split_ifs at hc
      · rw [← Except.ok.inj hc]
      · rw [← Except.ok.inj hc]

theorem createDirFold_files (d : FsPath) :
    ∀ (l : List Nat) (acc : Fs × Option FsError),
    ((l.foldl (createDirStep d) acc).1).files = acc.1.files := by
  intro l
  induction l with
  | nil => intro acc; rfl
  | cons i l ih =>
    intro acc
    rw [List.foldl_cons, ih, createDirStep_files]

theorem createDirAll_files (s : Fs) (d : FsPath) :
    (createDirAll s d).1.files = s.files :=
  createDirFold_files d (List.range d.length) (s, none)

theorem createDirStep_err (d : FsPath) (acc : Fs × Option FsError) (i : Nat)
    {e : FsError} (h : (createDirStep d acc i).2 = some e) :
    acc.2 = some e ∨ ∃ x, e = .dirCreate x := by
  obtain ⟨fs1, oe⟩ := acc
  cases oe with
  | some e' => exact Or.inl h
  | none =>
    right
    replace h : (match createDirOne fs1 (d.take (i + 1)) with
      | .error e => (fs1, some e)
      | .ok fs2 => (fs2, none)).2 = some e := h
    cases hc : createDirOne fs1 (d.take (i + 1)) with
    | error e' =>
      rw [hc] at h
      have h3 := Option.some.inj h
      unfold createDirOne at hc
      split_ifs at hc
      have h4 := Except.error.inj hc
      exact ⟨_, by rw [← h3, ← h4]⟩
    | ok fs2 =>
      rw [hc] at h
      cases h

theorem createDirFold_err (d : FsPath) :
    ∀ (l : List Nat) (acc : Fs × Option FsError) {e : FsError},
    (l.foldl (createDirStep d) acc).2 = some e →
    acc.2 = some e ∨ ∃ x, e = .dirCreate x := by
  intro l
  induction l with
  | nil => intro acc e h; exact Or.inl h
  | cons i l ih =>
    intro acc e h
    rw [List.foldl_cons] at h
    rcases ih (createDirStep d acc i) h with h' | h'
    · exact createDirStep_err d acc i h'
    · exact Or.inr h'

theorem createDirAll_err {s : Fs} {d : FsPath} {s2 : Fs} {e : FsError}
    (h : createDirAll s d = (s2, some e)) : ∃ x, e = .dirCreate x := by
  have h2 : (createDirAll s d).2 = some e := by rw [h]
  rcases createDirFold_err d (List.range d.length) (s, none) h2 with h' | h'
  · cases h'
  · exact h'

theorem renameFile_err_shape {s : Fs} {src dst : FsPath} {e : FsError}
    (h : renameFile s src dst = .error e) : e = .fileRename src dst := by
  unfold renameFile at h
  cases hf : s.fileAt src with
  | none =>
    rw [hf] at h
    exact (Except.error.inj h).symm
  | some f =>
    rw [hf] at h
    split_ifs at h
    exact (Except.error.inj h).symm

theorem renameFile_ok_files {s : Fs} {src dst : FsPath} {s1 : Fs}
    (h : renameFile s src dst = .ok s1) :
    ∃ f, s.fileAt src = some f ∧
      s1.files = s.files.filter (fun g => !(g.path == src) && !(g.path == dst)) ++
        [{ f with path := dst }] := by
  unfold renameFile at h
  cases hf : s.fileAt src with
  | none => rw [hf] at h; cases h
  | some f =>
    rw [hf] at h
    split_ifs at h
    cases h
    exact ⟨f, rfl, rfl⟩

theorem copyStep_eq_err {b o a : FsPath} {s : Fs} {e : FsError}
    (hc : createFile s (markerPath a) = .error e) :
    copyStep b o a s = (s, some e) := by
  unfold copyStep
  rw [hc]

theorem copyStep_eq_ok {b o a : FsPath} {s s1 : Fs}
    (hc : createFile s (markerPath a) = .ok s1) :
    copyStep b o a s = copyStep2 b o a s1 := by
  unfold copyStep
  rw [hc]

theorem copyStep2_eq_err {b o a : FsPath} {s1 s2 : Fs} {e : FsError}
    (hca : createDirAll s1 (outPath b o a).dropLast = (s2, some e)) :
    copyStep2 b o a s1 = (s2, some e) := by
  unfold copyStep2
  rw [hca]

theorem copyStep2_eq_ok {b o a : FsPath} {s1 s2 : Fs}
    (hca : createDirAll s1 (outPath b o a).dropLast = (s2, none)) :
    copyStep2 b o a s1 = copyStep3 b o a s2 := by
  unfold copyStep2
  rw [hca]

theorem copyStep3_eq_err {b o a : FsPath} {s2 : Fs} {e : FsError}
    (hcr : renameFile s2 a (outPath b o a) = .error e) :
    copyStep3 b o a s2 = (s2, some e) := by
  unfold copyStep3
  rw [hcr]

theorem copyStep3_eq_ok {b o a : FsPath} {s2 s3 : Fs}
    (hcr : renameFile s2 a (outPath b o a) = .ok s3) :
    copyStep3 b o a s2 = (s3, none) := by
  unfold copyStep3
  rw [hcr]

theorem copyStep_preserves {b o a : FsPath} {s : Fs} {q : FsFile}
    (hq : q ∈ s.files) (h1 : q.path ≠ markerPath a) (h2 : q.path ≠ a)
    (h3 : q.path ≠ outPath b o a) :
    q ∈ (copyStep b o a s).1.files := by
  cases hc : createFile s (markerPath a) with
  | error e =>
    rw [copyStep_eq_err hc]
    exact hq
  | ok s1 =>
    rw [copyStep_eq_ok hc]
    obtain ⟨hf1, _⟩ := createFile_ok_files hc
    have hq1 : q ∈ s1.files := by
      rw [hf1]
      refine List.mem_append_left _ (List.mem_filter.mpr ⟨hq, ?_⟩)
      simp [h1]
    cases hca : createDirAll s1 (outPath b o a).dropLast with
    | mk s2 oe =>
      have hf2 : s2.files = s1.files := by
        have h := createDirAll_files s1 (outPath b o a).dropLast
        rw [hca] at h
        exact h
      have hq2 : q ∈ s2.files := hf2 ▸ hq1
      cases oe with
      | some e =>
        rw [copyStep2_eq_err hca]
        exact hq2
      | none =>
        rw [copyStep2_eq_ok hca]
        cases hcr : renameFile s2 a (outPath b o a) with
        | error e =>
          rw [copyStep3_eq_err hcr]
          exact hq2
        | ok s3 =>
          rw [copyStep3_eq_ok hcr]
          obtain ⟨f, hfa, hf3⟩ := renameFile_ok_files hcr
          show q ∈ s3.files
          rw [hf3]
          refine List.mem_append_left _ (List.mem_filter.mpr ⟨hq2, ?_⟩)
          simp [h2, h3]

theorem copyStep_ok {b o a : FsPath} {s s' : Fs}
    (h : copyStep b o a s = (s', none))
    (hma : markerPath a ≠ a) (hmo : markerPath a ≠ outPath b o a) :
    (⟨markerPath a, false, 0⟩ : FsFile) ∈ s'.files ∧
    ∃ g ∈ s'.files, g.path = outPath b o a := by
  cases hc : createFile s (markerPath a) with
  | error e =>
    rw [copyStep_eq_err hc] at h
    injection h with h1 h2
    cases h2
  | ok s1 =>
    rw [copyStep_eq_ok hc] at h
    obtain ⟨hf1, _⟩ := createFile_ok_files hc
    cases hca : createDirAll s1 (outPath b o a).dropLast with
    | mk s2 oe =>
      have hf2 : s2.files = s1.files := by
        have h' := createDirAll_files s1 (outPath b o a).dropLast
        rw [hca] at h'
        exact h'
      cases oe with
      | some e =>
        rw [copyStep2_eq_err hca] at h
        injection h with h1 h2
        cases h2
      | none =>
        rw [copyStep2_eq_ok hca] at h
        cases hcr : renameFile s2 a (outPath b o a) with
        | error e =>
          rw [copyStep3_eq_err hcr] at h
          injection h with h1 h2
          cases h2
        | ok s3 =>
          rw [copyStep3_eq_ok hcr] at h
          injection h with h1 h2
          obtain ⟨f, hfa, hf3⟩ := renameFile_ok_files hcr
          subst h1
          constructor
          · rw [hf3]
            refine List.mem_append_left _ (List.mem_filter.mpr ⟨?_, ?_⟩)
            · rw [hf2, hf1]
              exact List.mem_append_right _ (List.mem_singleton.mpr rfl)
            · simp [hma, hmo]
          · refine ⟨{ f with path := outPath b o a }, ?_, rfl⟩
            rw [hf3]
            exact List.mem_append_right _ (List.mem_singleton.mpr rfl)

theorem copyStep_err {b o a : FsPath} {s s' : Fs} {e : FsError}
    (h : copyStep b o a s = (s', some e)) :
    ((∃ x, e = FsError.fileCreate x) ∧ s' = s) ∨
    (((∃ x, e = FsError.dirCreate x) ∨ (∃ x y, e = FsError.fileRename x y)) ∧
      (⟨markerPath a, false, 0⟩ : FsFile) ∈ s'.files ∧
      ∀ g ∈ s.files, g.path ≠ markerPath a → g ∈ s'.files) := by
  cases hc : createFile s (markerPath a) with
  | error e0 =>
    rw [copyStep_eq_err hc] at h
    injection h with h1 h2
    have h3 : e0 = e := Option.some.inj h2
    left
    refine ⟨⟨markerPath a, ?_⟩, h1.symm⟩
    rw [← h3]
    exact createFile_err_shape hc
  | ok s1 =>
    rw [copyStep_eq_ok hc] at h
    obtain ⟨hf1, _⟩ := createFile_ok_files hc
    have hmark1 : (⟨markerPath a, false, 0⟩ : FsFile) ∈ s1.files := by
      rw [hf1]
      exact List.mem_append_right _ (List.mem_singleton.mpr rfl)
    have hpres1 : ∀ g ∈ s.files, g.path ≠ markerPath a → g ∈ s1.files := by
      intro g hg hne
      rw [hf1]
      refine List.mem_append_left _ (List.mem_filter.mpr ⟨hg, ?_⟩)
      simp [hne]
    cases hca : createDirAll s1 (outPath b o a).dropLast with
    | mk s2 oe =>
      have hf2 : s2.files = s1.files := by
        have h' := createDirAll_files s1 (outPath b o a).dropLast
        rw [hca] at h'
        exact h'
      cases oe with
      | some e0 =>
        rw [copyStep2_eq_err hca] at h
        injection h with h1 h2
        have h3 : e0 = e := Option.some.inj h2
        subst h1
        right
        refine ⟨Or.inl ?_, hf2 ▸ hmark1, fun g hg hne => hf2 ▸ hpres1 g hg hne⟩
        rw [← h3]
        exact createDirAll_err hca
      | none =>
        rw [copyStep2_eq_ok hca] at h
        cases hcr : renameFile s2 a (outPath b o a) with
        | error e0 =>
          rw [copyStep3_eq_err hcr] at h
          injection h with h1 h2
          have h3 : e0 = e := Option.some.inj h2
          subst h1
          right
          refine ⟨Or.inr ?_, hf2 ▸ hmark1, fun g hg hne => hf2 ▸ hpres1 g hg hne⟩
          rw [← h3]
          exact ⟨a, outPath b o a, renameFile_err_shape hcr⟩
        | ok s3 =>
          rw [copyStep3_eq_ok hcr] at h
          injection h with h1 h2
          cases h2

theorem copyLoop_cons (b o p : FsPath) (rest : List FsPath) (s : Fs) :
    copyLoop b o (p :: rest) s =
      match copyStep b o p s with
      | (s1, some e) => (s1, some (e, p))
      | (s1, none) => copyLoop b o rest s1 := rfl

theorem copyLoop_preserves (b o : FsPath) : ∀ (l : List FsPath) (s : Fs) (q : FsFile),
    q ∈ s.files →
    (∀ p ∈ l, q.path ≠ markerPath p ∧ q.path ≠ p ∧ q.path ≠ outPath b o p) →
    q ∈ (copyLoop b o l s).1.files := by
  intro l
  induction l with
  | nil => intro s q hq _; exact hq
  | cons p rest ih =>
    intro s q hq hl
    obtain ⟨hm1, hm2, hm3⟩ := hl p (List.mem_cons_self p rest)
    have hstep := copyStep_preserves hq hm1 hm2 hm3
    rw [copyLoop_cons]
    cases hc : copyStep b o p s with
    | mk s1 oe =>
      rw [hc] at hstep
      cases oe with
      | some e => exact hstep
      | none => exact ih s1 q hstep (fun x hx => hl x (List.mem_cons_of_mem _ hx))

theorem artifact_mem_prop {fs : Fs} {b a : FsPath}
    (h : a ∈ findArtifactFiles fs b) :
    (b <+: a ∧ b.length < a.length) ∧ ∃ g ∈ fs.files, g.path = a := by
  obtain ⟨f, hf, rfl⟩ := List.mem_map.mp h
  have hp := (List.mem_filter.mp hf).2
  have hu : underDir b f.path = true := by
    cases hu : underDir b f.path
    · rw [hu] at hp; simp at hp
    · rfl
  exact ⟨underDir_iff.mp hu, f, (List.mem_filter.mp hf).1, rfl⟩

theorem artifact_nodup {fs : Fs} {b : FsPath}
    (h : (fs.files.map (fun f => f.path)).Nodup) :
    (findArtifactFiles fs b).Nodup :=
  List.Nodup.sublist (List.Sublist.map _ (List.filter_sublist _)) h

theorem copyLoop_ok_spec (b o : FsPath) (hd1 : ¬ b <+: o) (hd2 : ¬ o <+: b) :
    ∀ (l : List FsPath) (s s' : Fs),
    l.Nodup →
    (∀ p ∈ l, b <+: p ∧ b.length < p.length) →
    (∀ p ∈ l, isMarkerName (fileName p) = false) →
    copyLoop b o l s = (s', none) →
    ∀ a ∈ l, (⟨markerPath a, false, 0⟩ : FsFile) ∈ s'.files ∧
      ∃ g ∈ s'.files, g.path = outPath b o a := by
  intro l
  induction l with
  | nil => intro s s' _ _ _ _ a ha; cases ha
  | cons p rest ih =>
    intro s s' hnd hund hmk hloop a ha
    rw [copyLoop_cons] at hloop
    cases hc : copyStep b o p s with
    | mk s1 oe =>
      rw [hc] at hloop
      cases oe with
      | some e =>
        injection hloop with hl1 hl2
        cases hl2
      | none =>
        replace hloop : copyLoop b o rest s1 = (s', none) := hloop
        obtain ⟨hbp, hlp⟩ := hund p (List.mem_cons_self p rest)
        have hpne : p ≠ [] := nonempty_of_under hlp
        have hmNe : markerPath p ≠ p :=
          markerPath_ne_self (hmk p (List.mem_cons_self p rest))
        have hmU := markerPath_under hbp hlp
        have hoU := outPath_under (b := b) (o := o) (p := p) hlp
        have hmo : markerPath p ≠ outPath b o p := by
          intro he
          exact not_under_both hd1 hd2 hmU.1 (he ▸ hoU.1)
        have hpnotin : p ∉ rest := (List.nodup_cons.mp hnd).1
        obtain ⟨hmark1, g, hg1, hgp⟩ := copyStep_ok hc hmNe hmo
        rcases List.mem_cons.mp ha with rfl | ha'
        · have hcond1 : ∀ x ∈ rest, (markerPath a) ≠ markerPath x ∧
              (markerPath a) ≠ x ∧ (markerPath a) ≠ outPath b o x := by
            intro x hx
            obtain ⟨hbx, hlx⟩ := hund x (List.mem_cons_of_mem _ hx)
            refine ⟨?_, ?_, ?_⟩
            · intro he
              exact hpnotin (markerPath_inj hpne (nonempty_of_under hlx) he ▸ hx)
            · exact ne_of_markerName (isMarkerName_markerPath a)
                (hmk x (List.mem_cons_of_mem _ hx))
            · intro he
              exact not_under_both hd1 hd2 hmU.1
                (he ▸ (outPath_under (b := b) (o := o) (p := x) hlx).1)
          have hcond2 : ∀ x ∈ rest, g.path ≠ markerPath x ∧
              g.path ≠ x ∧ g.path ≠ outPath b o x := by
            intro x hx
            obtain ⟨hbx, hlx⟩ := hund x (List.mem_cons_of_mem _ hx)
            have hmUx := markerPath_under hbx hlx
            refine ⟨?_, ?_, ?_⟩
            · intro he
              exact not_under_both hd1 hd2 hmUx.1 ((hgp ▸ he) ▸ hoU.1)
            · intro he
              exact not_under_both hd1 hd2 hbx ((hgp ▸ he) ▸ hoU.1)
            · intro he
              have he2 : outPath b o a = outPath b o x := hgp ▸ he
              exact hpnotin (outPath_inj hbp hbx he2 ▸ hx)
          constructor
          · have hp1 := copyLoop_preserves b o rest s1 ⟨markerPath a, false, 0⟩
              hmark1 hcond1
            rw [hloop] at hp1
            exact hp1
          · refine ⟨g, ?_, hgp⟩
            have hp2 := copyLoop_preserves b o rest s1 g hg1 hcond2
            rw [hloop] at hp2
            exact hp2
        · exact ih s1 s' (List.nodup_cons.mp hnd).2
            (fun x hx => hund x (List.mem_cons_of_mem _ hx))
            (fun x hx => hmk x (List.mem_cons_of_mem _ hx)) hloop a ha'

/-- C4: after a successful `copy_build_files`, every artifact of the walk
(regular non-marker files and symlinks under the marker directory) has a
zero-byte marker entry alongside its original location and a file entry at
the same relative path under the output directory.  The hypotheses require
distinct marker/output roots, unique paths, and that no artifact itself
carries the marker suffix (a symlink named like a marker would make
`File::create` write through the symlink, which the path-only model does
not track). -/
theorem claim_C4 (b o : FsPath) (fs fs' : Fs)
    (hd1 : ¬ b <+: o) (hd2 : ¬ o <+: b)
    (hnodup : (fs.files.map (fun f => f.path)).Nodup)
    (hmk : ∀ p ∈ findArtifactFiles fs b, isMarkerName (fileName p) = false)
    (hok : copy_build_files b o fs = (fs', none)) :
    ∀ a ∈ findArtifactFiles fs b,
      (⟨markerPath a, false, 0⟩ : FsFile) ∈ fs'.files ∧
      ∃ g ∈ fs'.files, g.path = outPath b o a :=
  copyLoop_ok_spec b o hd1 hd2 (findArtifactFiles fs b) fs fs'
    (artifact_nodup hnodup) (fun p hp => (artifact_mem_prop hp).1) hmk hok

/-- C4 witness: one artifact `state/a/b.rpm` is moved to `out/a/b.rpm` with
marker `state/a/b.rpm.buildsys_marker`. -/
theorem claim_C4_witness :
    (¬ (["state"] : FsPath) <+: ["out"]) ∧ (¬ (["out"] : FsPath) <+: ["state"]) ∧
    (copyFs.files.map (fun f => f.path)).Nodup ∧
    (∀ p ∈ findArtifactFiles copyFs ["state"], isMarkerName (fileName p) = false) ∧
    copy_build_files ["state"] ["out"] copyFs = (copyFsAfter, none) ∧
    ∀ a ∈ findArtifactFiles copyFs ["state"],
      (⟨markerPath a, false, 0⟩ : FsFile) ∈ copyFsAfter.files ∧
      ∃ g ∈ copyFsAfter.files, g.path = outPath ["state"] ["out"] a :=
  ⟨by decide, by decide, by decide, by decide, by decide,
    claim_C4 ["state"] ["out"] copyFs copyFsAfter (by decide) (by decide)
      (by decide) (by decide) (by decide)⟩

theorem copyLoop_err_spec (b o : FsPath) (hd1 : ¬ b <+: o) (hd2 : ¬ o <+: b) :
    ∀ (l : List FsPath) (s s' : Fs) (e : FsError) (a : FsPath),
    l.Nodup →
    (∀ p ∈ l, b <+: p ∧ b.length < p.length) →
    (∀ p ∈ l, isMarkerName (fileName p) = false) →
    (∀ p ∈ l, ∃ g ∈ s.files, g.path = p) →
    copyLoop b o l s = (s', some (e, a)) →
    a ∈ l ∧
    (((∃ x, e = FsError.dirCreate x) ∨ (∃ x y, e = FsError.fileRename x y)) →
      (⟨markerPath a, false, 0⟩ : FsFile) ∈ s'.files ∧
      ∃ g ∈ s'.files, g.path = a) ∧
    (∃ l1 l2, l = l1 ++ a :: l2 ∧
      ∀ p ∈ l1, (∃ g ∈ s'.files, g.path = markerPath p) ∧
        ∃ g ∈ s'.files, g.path = outPath b o p) := by
  intro l
  induction l with
  | nil => intro s s' e a _ _ _ _ hloop; cases hloop
  | cons p rest ih =>
    intro s s' e a hnd hund hmk hin hloop
    rw [copyLoop_cons] at hloop
    obtain ⟨hbp, hlp⟩ := hund p (List.mem_cons_self p rest)
    have hpne : p ≠ [] := nonempty_of_under hlp
    have hmkp : isMarkerName (fileName p) = false := hmk p (List.mem_cons_self p rest)
    have hmNe : markerPath p ≠ p := markerPath_ne_self hmkp
    have hmU := markerPath_under hbp hlp
    have hoU := outPath_under (b := b) (o := o) (p := p) hlp
    have hpnotin : p ∉ rest := (List.nodup_cons.mp hnd).1
    cases hc : copyStep b o p s with
    | mk s1 oe =>
      rw [hc] at hloop
      cases oe with
      | some e0 =>
        replace hloop : ((s1, some (e0, p)) : Fs × Option (FsError × FsPath)) =
          (s', some (e, a)) := hloop
        injection hloop with hl1 hl2
        have hl3 := Option.some.inj hl2
        have hle : e0 = e := congrArg Prod.fst hl3
        have hla : p = a := congrArg Prod.snd hl3
        subst hl1
        subst hla
        subst hle
        refine ⟨List.mem_cons_self p rest, ?_, [], rest, rfl, by intro x hx; cases hx⟩
        intro hshape
        rcases copyStep_err hc with ⟨⟨x, hex⟩, _⟩ | ⟨_, hmark, hpres⟩
        · rcases hshape with ⟨y, hey⟩ | ⟨y, z, heyz⟩
          · rw [hex] at hey; cases hey
          · rw [hex] at heyz; cases heyz
        · obtain ⟨g, hg, hgp⟩ := hin p (List.mem_cons_self p rest)
          exact ⟨hmark, g, hpres g hg (by rw [hgp]; exact hmNe.symm), hgp⟩
      | none =>
        replace hloop : copyLoop b o rest s1 = (s', some (e, a)) := hloop
        have hstep1 : ∀ x ∈ rest, ∃ g ∈ s1.files, g.path = x := by
          intro x hx
          obtain ⟨hbx, hlx⟩ := hund x (List.mem_cons_of_mem _ hx)
          obtain ⟨g, hg, hgx⟩ := hin x (List.mem_cons_of_mem _ hx)
          have hp1 : g.path ≠ markerPath p := by
            rw [hgx]
            exact (ne_of_markerName (isMarkerName_markerPath p)
              (hmk x (List.mem_cons_of_mem _ hx))).symm
          have hp2 : g.path ≠ p := by
            rw [hgx]
            intro he
            exact hpnotin (he ▸ hx)
          have hp3 : g.path ≠ outPath b o p := by
            rw [hgx]
            intro he
            exact not_under_both hd1 hd2 hbx (he ▸ hoU.1)
          have := copyStep_preserves hg hp1 hp2 hp3
          rw [hc] at this
          exact ⟨g, this, hgx⟩
        obtain ⟨hal, hshape, l1, l2, hl12, hl1props⟩ := ih s1 s' e a
          (List.nodup_cons.mp hnd).2
          (fun x hx => hund x (List.mem_cons_of_mem _ hx))
          (fun x hx => hmk x (List.mem_cons_of_mem _ hx)) hstep1 hloop
        have hmo : markerPath p ≠ outPath b o p := by
          intro he
          exact not_under_both hd1 hd2 hmU.1 (he ▸ hoU.1)
        obtain ⟨hmark1, g, hg1, hgp⟩ := copyStep_ok hc hmNe hmo
        have hcond1 : ∀ x ∈ rest, (markerPath p) ≠ markerPath x ∧
            (markerPath p) ≠ x ∧ (markerPath p) ≠ outPath b o x := by
          intro x hx
          obtain ⟨hbx, hlx⟩ := hund x (List.mem_cons_of_mem _ hx)
          refine ⟨?_, ?_, ?_⟩
          · intro he
            exact hpnotin (markerPath_inj hpne (nonempty_of_under hlx) he ▸ hx)
          · exact ne_of_markerName (isMarkerName_markerPath p)
              (hmk x (List.mem_cons_of_mem _ hx))
          · intro he
            exact not_under_both hd1 hd2 hmU.1
              (he ▸ (outPath_under (b := b) (o := o) (p := x) hlx).1)
        have hcond2 : ∀ x ∈ rest, g.path ≠ markerPath x ∧
            g.path ≠ x ∧ g.path ≠ outPath b o x := by
          intro x hx
          obtain ⟨hbx, hlx⟩ := hund x (List.mem_cons_of_mem _ hx)
          have hmUx := markerPath_under hbx hlx
          refine ⟨?_, ?_, ?_⟩
          · intro he
            exact not_under_both hd1 hd2 hmUx.1 ((hgp ▸ he) ▸ hoU.1)
          · intro he
            exact not_under_both hd1 hd2 hbx ((hgp ▸ he) ▸ hoU.1)
          · intro he
            have he2 : outPath b o p = outPath b o x := hgp ▸ he
            exact hpnotin (outPath_inj hbp hbx he2 ▸ hx)
        have hm1 := copyLoop_preserves b o rest s1 ⟨markerPath p, false, 0⟩
          hmark1 hcond1
        have hm2 := copyLoop_preserves b o rest s1 g hg1 hcond2
        rw [hloop] at hm1 hm2
        refine ⟨List.mem_cons_of_mem _ hal, hshape,
          p :: l1, l2, by rw [hl12, List.cons_append], ?_⟩
        intro x hx
        rcases List.mem_cons.mp hx with rfl | hx'
        · exact ⟨⟨⟨markerPath x, false, 0⟩, hm1, rfl⟩, g, hm2, hgp⟩
        · exact hl1props x hx'

/-- C10: `copy_build_files` is not atomic on error.  The marker file is
created before the rename is attempted, so when the parent-directory
creation or the rename for some artifact fails, the function stops in a
state where that artifact's marker already exists while the artifact has
not been moved (it is still at its original path), and every artifact
processed earlier in the walk remains moved with its marker in place. -/
theorem claim_C10 (b o : FsPath) (fs fs' : Fs) (e : FsError) (a : FsPath)
    (hd1 : ¬ b <+: o) (hd2 : ¬ o <+: b)
    (hnodup : (fs.files.map (fun f => f.path)).Nodup)
    (hmk : ∀ p ∈ findArtifactFiles fs b, isMarkerName (fileName p) = false)
    (herr : copy_build_files b o fs = (fs', some (e, a))) :
    a ∈ findArtifactFiles fs b ∧
    (((∃ x, e = FsError.dirCreate x) ∨ (∃ x y, e = FsError.fileRename x y)) →
      (⟨markerPath a, false, 0⟩ : FsFile) ∈ fs'.files ∧
      ∃ g ∈ fs'.files, g.path = a) ∧
    (∃ l1 l2, findArtifactFiles fs b = l1 ++ a :: l2 ∧
      ∀ p ∈ l1, (∃ g ∈ fs'.files, g.path = markerPath p) ∧
        ∃ g ∈ fs'.files, g.path = outPath b o p) :=
  copyLoop_err_spec b o hd1 hd2 (findArtifactFiles fs b) fs fs' e a
    (artifact_nodup hnodup) (fun p hp => (artifact_mem_prop hp).1) hmk
    (fun p hp => (artifact_mem_prop hp).2) herr

/-- C10 witness: the second artifact's rename fails because a directory
occupies its destination; its marker exists, it is unmoved, and the first
artifact remains moved with its marker. -/
theorem claim_C10_witness :
    copy_build_files ["state"] ["out"] copyErrFs =
      (copyErrAfter, some (FsError.fileRename ["state", "a2.rpm"] ["out", "a2.rpm"],
        ["state", "a2.rpm"])) ∧
    (["state", "a2.rpm"] : FsPath) ∈ findArtifactFiles copyErrFs ["state"] ∧
    (((∃ x, FsError.fileRename ["state", "a2.rpm"] ["out", "a2.rpm"] =
        FsError.dirCreate x) ∨ (∃ x y,
        FsError.fileRename ["state", "a2.rpm"] ["out", "a2.rpm"] =
          FsError.fileRename x y)) →
      (⟨markerPath ["state", "a2.rpm"], false, 0⟩ : FsFile) ∈ copyErrAfter.files ∧
      ∃ g ∈ copyErrAfter.files, g.path = (["state", "a2.rpm"] : FsPath)) ∧
    (∃ l1 l2, findArtifactFiles copyErrFs ["state"] =
        l1 ++ (["state", "a2.rpm"] : FsPath) :: l2 ∧
      ∀ p ∈ l1, (∃ g ∈ copyErrAfter.files, g.path = markerPath p) ∧
        ∃ g ∈ copyErrAfter.files, g.path = outPath ["state"] ["out"] p) :=
  ⟨by decide,
    claim_C10 ["state"] ["out"] copyErrFs copyErrAfter
      (FsError.fileRename ["state", "a2.rpm"] ["out", "a2.rpm"]) ["state", "a2.rpm"]
      (by decide) (by decide) (by decide) (by decide) (by decide)⟩

end Twoliter
